import Mathlib

/-!
Verification development for the Lexeme vocabulary-ingestion backend.

The definitions below are a shallow embedding of the Python sources:

* `backend/app/services/dictionary_service.py` (morphological normalization,
  translation sanitization),
* `backend/app/services/comprehensive_vocabulary_processor.py` (word
  extraction, lemma grouping, occurrence sampling, database upsert loop),
* `backend/app/utils/text_utils.py` (`sanitize_text`),
* `backend/app/models/lemma.py` (the `Lemma` and `Token` rows).

Text is modelled as `List Char` (`Str`). Python's Unicode-aware character
predicates (`str.lower`, `str.isalpha`, `unicodedata` NFD accent stripping)
are modelled by explicit finite tables covering the ASCII range plus the
Latin accented letters that appear in the sources' own character classes;
characters outside those tables behave as uncased, non-alphabetic symbols.
The optional spaCy analyzer is absent (a valid runtime state per the spec's
"graceful degradation"), so every function follows its deterministic
heuristic fallback path, exactly as written in the source.
-/

/-- Strings are modelled as lists of characters. -/
abbrev Str := List Char

/-- The ASCII apostrophe (written via its code point to keep the file free of
quote-like literal characters). -/
def aposC : Char := Char.ofNat 39

/-- The Unicode right single quotation mark U+2019, removed together with the
apostrophe by `_normalize_italian_word_form`. -/
def rsquoC : Char := Char.ofNat 8217

/-- The backtick character U+0060 (part of the quote set stripped by
`_clean_translation_text`). -/
def backtickC : Char := Char.ofNat 96

/-- Left single quotation mark U+2018. -/
def lsquoC : Char := Char.ofNat 8216

/-- Left double quotation mark U+201C, from `_clean_translation_text`. -/
def ldquoC : Char := Char.ofNat 8220

/-- Right double quotation mark U+201D, from `_clean_translation_text`. -/
def rdquoC : Char := Char.ofNat 8221

/-- Uppercase-to-lowercase table modelling Python `str.lower` on the
characters this code base manipulates: ASCII letters plus the Latin-1
accented capitals appearing in the sources' character classes. -/
def lowerPairs : List (Char × Char) :=
  [('A', 'a'), ('B', 'b'), ('C', 'c'), ('D', 'd'), ('E', 'e'), ('F', 'f'),
   ('G', 'g'), ('H', 'h'), ('I', 'i'), ('J', 'j'), ('K', 'k'), ('L', 'l'),
   ('M', 'm'), ('N', 'n'), ('O', 'o'), ('P', 'p'), ('Q', 'q'), ('R', 'r'),
   ('S', 's'), ('T', 't'), ('U', 'u'), ('V', 'v'), ('W', 'w'), ('X', 'x'),
   ('Y', 'y'), ('Z', 'z'),
   ('À', 'à'), ('È', 'è'), ('Ì', 'ì'), ('Ò', 'ò'), ('Ù', 'ù'),
   ('Á', 'á'), ('É', 'é'), ('Í', 'í'), ('Ó', 'ó'), ('Ú', 'ú'),
   ('Ä', 'ä'), ('Ë', 'ë'), ('Ï', 'ï'), ('Ö', 'ö'), ('Ü', 'ü'),
   ('Ñ', 'ñ'), ('Ç', 'ç')]

/-- Python `str.lower`, restricted to the modelled alphabet. -/
def lowerChar (c : Char) : Char :=
  match lowerPairs.find? (fun p => p.1 == c) with
  | some p => p.2
  | none => c

/-- Python `str.lower` over a whole string. -/
def toLowerStr (s : Str) : Str := s.map lowerChar

/-- Characters treated as whitespace by Python `str.split` / `str.strip` and
the regex class `\s` (the forms that can appear in the modelled texts). -/
def isSpaceChar (c : Char) : Bool :=
  c == ' ' || c == '\t' || c == '\n' || c == '\r' ||
  c == Char.ofNat 11 || c == Char.ofNat 12

/-- A character is an uppercase letter of the modelled alphabet. -/
def isUpperChar (c : Char) : Bool := lowerPairs.any (fun p => p.1 == c)

/-- A character is a lowercase letter of the modelled alphabet
(`ß` is lowercase in Python and has no uppercase pair here). -/
def isLowerChar (c : Char) : Bool :=
  lowerPairs.any (fun p => p.2 == c) || c == 'ß'

/-- Python `str.isalpha`, restricted to the modelled alphabet. -/
def isAlphaChar (c : Char) : Bool := isUpperChar c || isLowerChar c

/-- ASCII digits (regex `\d` over the modelled texts). -/
def isDigitChar (c : Char) : Bool := '0' ≤ c && c ≤ '9'

/-- Regex `\w`: letters, digits or underscore. -/
def isWordChar (c : Char) : Bool := isAlphaChar c || isDigitChar c || c == '_'

/-- Accent-decomposition table: for each precomposed accented letter used by
the sources, its NFD base letter (`unicodedata.normalize('NFD', ·)` with the
combining mark removed, as in `DictionaryService._strip_accents`). -/
def accentPairs : List (Char × Char) :=
  [('à', 'a'), ('è', 'e'), ('ì', 'i'), ('ò', 'o'), ('ù', 'u'),
   ('á', 'a'), ('é', 'e'), ('í', 'i'), ('ó', 'o'), ('ú', 'u'),
   ('ä', 'a'), ('ë', 'e'), ('ï', 'i'), ('ö', 'o'), ('ü', 'u'),
   ('ñ', 'n'), ('ç', 'c'),
   ('À', 'A'), ('È', 'E'), ('Ì', 'I'), ('Ò', 'O'), ('Ù', 'U'),
   ('Á', 'A'), ('É', 'E'), ('Í', 'I'), ('Ó', 'O'), ('Ú', 'U'),
   ('Ä', 'A'), ('Ë', 'E'), ('Ï', 'I'), ('Ö', 'O'), ('Ü', 'U'),
   ('Ñ', 'N'), ('Ç', 'C')]

/-- Combining diacritical marks U+0300–U+036F: category `Mn`, removed
outright by `_strip_accents`. -/
def isCombining (c : Char) : Bool := 768 ≤ c.toNat && c.toNat ≤ 879

/-- Per-character action of `DictionaryService._strip_accents`: combining
marks disappear, precomposed accented letters decompose to their base
letter, everything else is kept. -/
def stripAccentChar (c : Char) : Option Char :=
  if isCombining c then none
  else
    match accentPairs.find? (fun p => p.1 == c) with
    | some p => some p.2
    | none => some c

/-- `DictionaryService._strip_accents`. -/
def stripAccents (s : Str) : Str := s.filterMap stripAccentChar

/-- Python `str.strip` from the left. -/
def trimLeft (s : Str) : Str := s.dropWhile isSpaceChar

/-- Python `str.strip` (both ends). -/
def trimStr (s : Str) : Str := ((trimLeft s).reverse.dropWhile isSpaceChar).reverse

/-- Python `str.split()` with no separator: split on whitespace runs,
dropping empty fragments. -/
def splitWsAux : Str → Str → List Str
  | [], acc => if acc.isEmpty then [] else [acc.reverse]
  | c :: rest, acc =>
    if isSpaceChar c then
      if acc.isEmpty then splitWsAux rest [] else acc.reverse :: splitWsAux rest []
    else splitWsAux rest (c :: acc)

/-- Python `str.split()` (whitespace splitting). -/
def splitWs (s : Str) : List Str := splitWsAux s []

-- ------------------------------------------------------------------
-- Morphological normalization (dictionary_service.py)
-- ------------------------------------------------------------------

/-- String constant for the language tag of Italian. -/
def itL : Str := "it".toList

/-- String constant for the language tag of English. -/
def enL : Str := "en".toList

/-- Ending used by `_looks_like_infinitive`: `are`. -/
def endAre : Str := "are".toList

/-- Ending used by `_looks_like_infinitive`: `ere`. -/
def endEre : Str := "ere".toList

/-- Ending used by `_looks_like_infinitive`: `ire`. -/
def endIre : Str := "ire".toList

/-- `DictionaryService._looks_like_infinitive`. -/
def looksLikeInfinitive (w : Str) : Bool :=
  !w.isEmpty && (endAre.isSuffixOf w || endEre.isSuffixOf w || endIre.isSuffixOf w)

/-- The clitic suffix table of `_strip_italian_clitic`, already arranged in
the order produced by Python's stable `sort(key=len, reverse=True)` on the
literal list in the source. -/
def cliticSuffixes : List Str :=
  ["gliene".toList, "gliela".toList, "glielo".toList, "glieli".toList, "gliele".toList,
   "mene".toList, "tene".toList, "cene".toList, "vene".toList,
   "mele".toList, "mela".toList, "melo".toList, "meli".toList,
   "tele".toList, "tela".toList, "telo".toList, "teli".toList,
   "cele".toList, "cela".toList, "celo".toList, "celi".toList,
   "gli".toList,
   "la".toList, "le".toList, "li".toList, "lo".toList,
   "mi".toList, "ti".toList, "si".toList, "ci".toList, "vi".toList, "ne".toList]

/-- The three candidate constructions tried for one clitic stem inside
`_strip_italian_clitic` (three successive `if` blocks in the source). -/
def cliticCandidates (stem : Str) : Option Str :=
  let c1 := stem ++ ['e']
  if ['r'].isSuffixOf stem && looksLikeInfinitive c1 then some c1
  else
    let c2 := stem ++ ['r', 'e']
    if (match stem.getLast? with
        | some c => c == 'a' || c == 'e' || c == 'i' || c == 'o' || c == 'u'
        | none => false) && looksLikeInfinitive c2 then some c2
    else
      let c3 := stem ++ ['e']
      if (("ar".toList).isSuffixOf stem || ("er".toList).isSuffixOf stem ||
          ("ir".toList).isSuffixOf stem) && looksLikeInfinitive c3 then some c3
      else none

/-- The suffix loop of `_strip_italian_clitic`: try each suffix in order; on
a match with a long-enough stem, try the candidate constructions, otherwise
continue with the next suffix. -/
def cliticLoop (word : Str) : List Str → Option Str
  | [] => none
  | suf :: rest =>
    if suf.isSuffixOf word then
      let stem := word.take (word.length - suf.length)
      if stem.length < 3 then cliticLoop word rest
      else
        match cliticCandidates stem with
        | some c => some c
        | none => cliticLoop word rest
    else cliticLoop word rest

/-- The trailing reflexive-infinitive case of `_strip_italian_clitic`
(`arsi` / `ersi` / `irsi`). -/
def cliticReflexive (word : Str) : Option Str :=
  if (("arsi".toList).isSuffixOf word || ("ersi".toList).isSuffixOf word ||
      ("irsi".toList).isSuffixOf word) && word.length > 5 then
    let stem := word.take (word.length - 2)
    let cand := if ['r'].isSuffixOf stem then stem ++ ['e'] else stem ++ ['r', 'e']
    if looksLikeInfinitive cand then some cand else none
  else none

/-- `DictionaryService._strip_italian_clitic`. -/
def stripItalianClitic (word : Str) : Option Str :=
  if word.isEmpty || word.length < 4 then none
  else
    match cliticLoop word cliticSuffixes with
    | some c => some c
    | none => cliticReflexive word

/-- The `suffix_map` of `_italian_infinitive_hint`, in Python dict insertion
order. -/
def hintTable : List (Str × List Str) :=
  [("avano".toList, [endAre]), ("evano".toList, [endEre]), ("ivano".toList, [endIre]),
   ("iamo".toList, [endAre, endEre, endIre]),
   ("ate".toList, [endAre]), ("ete".toList, [endEre]), ("ite".toList, [endIre]),
   ("ava".toList, [endAre]), ("eva".toList, [endEre]), ("iva".toList, [endIre]),
   ("ano".toList, [endAre]), ("ono".toList, [endEre, endIre]),
   ("ero".toList, [endAre, endEre]), ("aro".toList, [endAre]), ("iro".toList, [endIre]),
   ("ato".toList, [endAre]), ("uto".toList, [endEre]), ("ito".toList, [endIre])]

/-- The inner replacement loop of `_italian_infinitive_hint`. -/
def hintTryReps (stem : Str) : List Str → Option Str
  | [] => none
  | rep :: rest =>
    let cand := stem ++ rep
    if looksLikeInfinitive cand then some cand else hintTryReps stem rest

/-- `DictionaryService._italian_infinitive_hint`. -/
def italianInfinitiveHint (word : Str) : Option Str :=
  if word.isEmpty then none
  else
    let rec go : List (Str × List Str) → Option Str
      | [] => none
      | (suf, reps) :: rest =>
        if suf.isSuffixOf word && word.length > suf.length + 1 then
          match hintTryReps (word.take (word.length - suf.length)) reps with
          | some c => some c
          | none => go rest
        else go rest
    go hintTable

/-- `DictionaryService._normalize_italian_noun_adjective`. -/
def normalizeItalianNounAdjective (originalWord current : Str) : Str :=
  let word := trimStr originalWord
  if word.isEmpty || looksLikeInfinitive current then current
  else if !current.isEmpty &&
      (['o'].isSuffixOf current || ['a'].isSuffixOf current || ['e'].isSuffixOf current) then
    current
  else
    let candidate :=
      if ['i'].isSuffixOf word && word.length > 3 then word.dropLast ++ ['o']
      else if ['e'].isSuffixOf word && word.length > 3 then word.dropLast ++ ['a']
      else current
    if !candidate.isEmpty && candidate.length ≥ 3 then candidate else current

/-- `DictionaryService._normalize_italian_word_form` (with no spaCy model,
so `current_normalized` is the accent-handled form computed by the caller). -/
def normalizeItalianWordForm (originalWord currentNormalized : Str) : Str :=
  let word := if !originalWord.isEmpty then originalWord else currentNormalized
  if word.isEmpty then currentNormalized
  else if looksLikeInfinitive currentNormalized then currentNormalized
  else
    let lowerWord := (toLowerStr word).filter (fun c => !(c == rsquoC) && !(c == aposC))
    let lowerWordStripped := stripAccents lowerWord
    let candidate := currentNormalized
    let candidate :=
      match stripItalianClitic lowerWord with
      | some c => if !(c == candidate) then c else candidate
      | none => candidate
    let candidate :=
      match italianInfinitiveHint (if !lowerWordStripped.isEmpty then lowerWordStripped else lowerWord) with
      | some h => if looksLikeInfinitive h then h else candidate
      | none => candidate
    let nounCandidate := normalizeItalianNounAdjective
      (if !lowerWordStripped.isEmpty then lowerWordStripped else lowerWord) candidate
    if !nounCandidate.isEmpty && !(nounCandidate == candidate) then nounCandidate else candidate

/-- Body of `DictionaryService._normalize_word_form` after the cache check
(spaCy unavailable): accent stripping followed by the Italian-specific
heuristics. -/
def normCoreBody (word lang : Str) : Str :=
  let strippedWord := stripAccents word
  let normalized := if !strippedWord.isEmpty && !(strippedWord == word) then strippedWord else word
  if lang == itL then normalizeItalianWordForm word normalized else normalized

/-- `DictionaryService._normalize_word_form` as a pure function (the
normalization cache is modelled separately; the cached variant below returns
exactly this value). -/
def normCore (word lang : Str) : Str :=
  if word.isEmpty then word else normCoreBody word lang

/-- `DictionaryService.normalize_word_form` (the public wrapper: empty
guard, default language, lowercasing/trimming, and the `or` fallback). -/
def normalizeWordForm (word language : Str) : Str :=
  if word.isEmpty then word
  else
    let lang := toLowerStr (if language.isEmpty then enL else language)
    let w := toLowerStr (trimStr word)
    let n := normCore w lang
    if !n.isEmpty then n else w

-- ------------------------------------------------------------------
-- Word extraction (comprehensive_vocabulary_processor._extract_all_words,
-- regex fallback path, spaCy unavailable)
-- ------------------------------------------------------------------

/-- Language tag `fr`. -/
def frL : Str := "fr".toList

/-- Language tag `es`. -/
def esL : Str := "es".toList

/-- Language tag `de`. -/
def deL : Str := "de".toList

/-- The explicit letter class of the Italian/French/Spanish/German cleanup
regexes (`a-zA-Z` plus the accented letters literally listed in the source,
which include lowercase `ßñç` but no uppercase `ÑÇ`). -/
def sourceLetterClass : Str :=
  ("abcdefghijklmnopqrstuvwxyz".toList) ++ ("ABCDEFGHIJKLMNOPQRSTUVWXYZ".toList) ++
  ("àèìòùáéíóúäëïöüßñç".toList) ++ ("ÀÈÌÒÙÁÉÍÓÚÄËÏÖÜ".toList)

/-- Membership in the source's letter class. -/
def isSourceLetter (c : Char) : Bool := sourceLetterClass.contains c

/-- Regex substitution replacing every character that is neither a word
character, whitespace, nor (optionally) an apostrophe with a space. -/
def subNonWordToSpace (keepApos : Bool) (s : Str) : Str :=
  s.map (fun c =>
    if isWordChar c || isSpaceChar c || (keepApos && c == aposC) then c else ' ')

/-- The per-word cleanup for Italian/French: keep only source-class letters
and apostrophes. -/
def keepItFrChars (w : Str) : Str := w.filter (fun c => isSourceLetter c || c == aposC)

/-- The per-word cleanup for Spanish/German: keep only source-class letters. -/
def keepEsDeChars (w : Str) : Str := w.filter isSourceLetter

/-- The `known_splits` pairs of `_merge_split_words`. -/
def knownSplits : List (Str × Str) :=
  [("pubbl".toList, "icato".toList), ("pubbli".toList, "cato".toList),
   ("comun".toList, "icato".toList), ("comuni".toList, "cato".toList),
   ("partic".toList, "olare".toList), ("partico".toList, "lare".toList),
   ("appl".toList, "icato".toList), ("appli".toList, "cato".toList),
   ("espl".toList, "icato".toList), ("espli".toList, "cato".toList),
   ("impl".toList, "icato".toList), ("impli".toList, "cato".toList),
   ("compl".toList, "icato".toList), ("compli".toList, "cato".toList),
   ("sempl".toList, "icato".toList), ("semplic".toList, "ato".toList),
   ("multipl".toList, "icato".toList), ("multipli".toList, "cato".toList)]

/-- The `common_prefixes` list of `_merge_split_words`. -/
def commonPrefixList : List Str :=
  ["pubbl".toList, "comun".toList, "partic".toList, "appl".toList,
   "espl".toList, "impl".toList, "compl".toList, "sempl".toList]

/-- The continuation patterns of `_merge_split_words` pattern 2. -/
def continuationPatterns : List Str :=
  ["icato".toList, "icito".toList, "icuto".toList,
   "licato".toList, "licito".toList, "licuto".toList]

/-- The merge decision of `_merge_split_words` for one adjacent pair of
lowercased words (spaCy validation unavailable, so the heuristic decision
stands, as in the source's exception handlers). -/
def shouldMergePair (currentWord nextWord : Str) : Bool :=
  let merged := currentWord ++ nextWord
  if 6 ≤ merged.length && merged.length ≤ 20 then
    knownSplits.any (fun p => p.1.isSuffixOf currentWord && p.2.isPrefixOf nextWord) ||
    (commonPrefixList.any (fun p => p.isSuffixOf currentWord) &&
      continuationPatterns.any (fun p => p.isPrefixOf nextWord))
  else false

/-- The merged word construction of `_merge_split_words` (capitalization of
the first word preserved). -/
def mergeWords (firstWord secondWord : Str) : Str :=
  if (match firstWord.head? with | some c => isUpperChar c | none => false) then
    firstWord ++ toLowerStr secondWord
  else toLowerStr firstWord ++ toLowerStr secondWord

/-- The scan loop of `_merge_split_words`. -/
def mergeScan : List Str → List Str
  | [] => []
  | [w] => [w]
  | w :: w2 :: rest =>
    if shouldMergePair (toLowerStr w) (toLowerStr w2) then
      mergeWords w w2 :: mergeScan rest
    else w :: mergeScan (w2 :: rest)

/-- `_merge_split_words`: only applied for Italian. -/
def mergeSplitWords (words : List Str) (language : Str) : List Str :=
  if words.isEmpty || !(language == itL) then words else mergeScan words

/-- The final token filter of `_extract_all_words`: at least two characters
with apostrophes removed, and alphabetic content. -/
def tokenKeep (w : Str) : Bool :=
  let noApos := w.filter (fun c => !(c == aposC))
  noApos.length ≥ 2 &&
    ((!noApos.isEmpty && noApos.all isAlphaChar) || w.any isAlphaChar)

/-- `_extract_all_words` (regex fallback path; spaCy unavailable). -/
def extractAllWords (text language : Str) : List Str :=
  let words :=
    if language == itL then
      (splitWs (subNonWordToSpace true text)).map keepItFrChars
    else if language == frL then
      (splitWs (subNonWordToSpace true text)).map keepItFrChars
    else
      let ws := splitWs (subNonWordToSpace false text)
      if language == esL || language == deL then ws.map keepEsDeChars else ws
  mergeSplitWords (words.filter tokenKeep) language

-- ------------------------------------------------------------------
-- Translation sanitization (dictionary_service.py)
-- ------------------------------------------------------------------

/-- Python `str.rstrip` / tail of `str.strip` with a character set. -/
def dropLastWhileP (p : Char → Bool) (s : Str) : Str := (s.reverse.dropWhile p).reverse

/-- Python `str.strip(chars)`: remove any of the given characters from both
ends. -/
def stripBoth (set : List Char) (s : Str) : Str :=
  dropLastWhileP (fun c => set.contains c) (s.dropWhile (fun c => set.contains c))

/-- Whitespace-run collapsing, the `re.sub` of `\s+` to a single space. -/
def collapseWsAux : Str → Bool → Str
  | [], _ => []
  | c :: rest, prevSpace =>
    if isSpaceChar c then
      if prevSpace then collapseWsAux rest true else ' ' :: collapseWsAux rest true
    else c :: collapseWsAux rest false

/-- `re.sub` of `\s+` with a single space. -/
def collapseWs (s : Str) : Str := collapseWsAux s false

/-- `re.sub` removing a trailing `-digits` marker (MyMemory sense markers). -/
def stripDashNum (s : Str) : Str :=
  let r := s.reverse
  let ds := r.takeWhile isDigitChar
  if ds.length ≥ 1 then
    match (r.drop ds.length).head? with
    | some c => if c == '-' then (r.drop (ds.length + 1)).reverse else s
    | none => s
  else s

/-- `re.sub` removing a trailing parenthesised numeric qualifier
(`\s*\(\d+\)$`). -/
def stripParenNum (s : Str) : Str :=
  let r := s.reverse
  match r.head? with
  | some c =>
    if c == ')' then
      let r1 := r.drop 1
      let ds := r1.takeWhile isDigitChar
      if ds.length ≥ 1 then
        match (r1.drop ds.length).head? with
        | some c2 =>
          if c2 == '(' then ((r1.drop (ds.length + 1)).dropWhile isSpaceChar).reverse else s
        | none => s
      else s
    else s
  | none => s

/-- Python `str.isupper` over the modelled alphabet: at least one cased
character and no lowercase cased character. -/
def isUpperStr (s : Str) : Bool :=
  s.any (fun c => isUpperChar c || isLowerChar c) && s.all (fun c => !isLowerChar c)

/-- The bracket set of `_clean_translation_text`. -/
def bracketSet : List Char := ['[', ']']

/-- The quote set of `_clean_translation_text`. -/
def quoteSet : List Char := [ldquoC, rdquoC, '"', aposC, backtickC]

/-- The trailing punctuation set of `_clean_translation_text`. -/
def punctTailSet : List Char := ['?', '!', '.', ',', ';', ':']

/-- `DictionaryService._clean_translation_text`. -/
def cleanTranslationText (text : Str) : Str :=
  if text.isEmpty then []
  else
    let cleaned := trimStr (collapseWs text)
    let cleaned := stripBoth bracketSet cleaned
    let cleaned := stripBoth quoteSet cleaned
    let cleaned := trimStr (dropLastWhileP (fun c => punctTailSet.contains c) cleaned)
    let cleaned := stripDashNum cleaned
    let cleaned := stripParenNum cleaned
    if !cleaned.isEmpty && isUpperStr cleaned && !cleaned.contains ' ' && cleaned.length > 2
    then toLowerStr cleaned else cleaned

/-- `DictionaryService._looks_like_bad_translation`. The word-frequency
oracle `zipf` models the external `wordfreq.zipf_frequency` corpus data (the
code compares it against the literal thresholds 1.0 and 0.5); the function
is parametric in it because the corpus is external data, not repository
code. -/
def looksLikeBadTranslation (zipf : Str → Rat) (translation source : Str) : Bool :=
  if translation.isEmpty then true
  else
    let cleaned := trimStr translation
    if cleaned == ['-'] || cleaned == ['-', '-'] then true
    else if !cleaned.any isAlphaChar then true
    else
      let alphaOnly := cleaned.filter isAlphaChar
      if alphaOnly.length < 2 then true
      else
        let words := splitWs cleaned
        if words.length > 5 && source.length ≤ 5 then true
        else if cleaned.any isDigitChar then true
        else if (!source.isEmpty &&
            (match source.head? with | some c => isLowerChar c | none => false) &&
            !cleaned.isEmpty &&
            (match cleaned.head? with | some c => isUpperChar c | none => false) &&
            words.length == 1 && source.length ≥ 3) then true
        else
          let freq := zipf (toLowerStr (words.headD []))
          if freq < 1 && source.length ≤ 4 then true
          else if freq < mkRat 1 2 && words.length == 1 then true
          else false

/-- Splitting on a single separator character, Python `str.split(sep)`
(empty fragments kept; the caller filters them). -/
def splitOnCharAux (sep : Char) : Str → Str → List Str
  | [], acc => [acc.reverse]
  | c :: rest, acc =>
    if c == sep then acc.reverse :: splitOnCharAux sep rest []
    else splitOnCharAux sep rest (c :: acc)

/-- Python `str.split(sep)`. -/
def splitOnChar (sep : Char) (s : Str) : List Str := splitOnCharAux sep s []

/-- The separator preference list of `_sanitize_translation`. -/
def sepChars : List Char := [';', ',', '/', '\n']

/-- The separator-splitting loop of `_sanitize_translation`: take the first
usable segment for the first separator that both occurs and yields a
non-blank part. -/
def sepSplitLoop (cleaned : Str) : List Char → Str
  | [] => cleaned
  | sep :: rest =>
    if cleaned.contains sep then
      let parts := ((splitOnChar sep cleaned).map trimStr).filter (fun p => !p.isEmpty)
      match parts.head? with
      | some p => p
      | none => sepSplitLoop cleaned rest
    else sepSplitLoop cleaned rest

/-- The morphological-marker prefixes rejected by `_sanitize_translation`. -/
def markerTags : List Str :=
  ["plural:".toList, "feminine:".toList, "masculine:".toList,
   "root:".toList, "prefix:".toList, "suffix:".toList]

/-- The cleaning-and-trimming stage of `_sanitize_translation`: basic
cleanup, separator splitting, and the short-source phrase trimming. The
rejection checks are applied to this value. -/
def sanitizeStage (translation source : Str) : Str :=
  let cleaned := cleanTranslationText translation
  let cleaned := sepSplitLoop cleaned sepChars
  let words := splitWs cleaned
  if words.length > 2 && source.length ≤ 4 then words.headD []
  else if words.length > 1 && source.length ≤ 3 then words.headD []
  else cleaned

/-- `DictionaryService._sanitize_translation`. -/
def sanitizeTranslation (zipf : Str → Rat) (translation source language : Str)
    (allowBlank : Bool) : Str :=
  let cleaned := sanitizeStage translation source
  let lowerClean := toLowerStr cleaned
  let cleaned := if markerTags.any (fun m => m.isPrefixOf lowerClean) then [] else cleaned
  let cleaned :=
    if !source.isEmpty && !cleaned.isEmpty && toLowerStr cleaned == toLowerStr source
    then [] else cleaned
  let _ := language
  let cleaned := if looksLikeBadTranslation zipf cleaned source then [] else cleaned
  let cleaned := cleanTranslationText cleaned
  if cleaned.isEmpty && !allowBlank then [] else cleaned

-- ------------------------------------------------------------------
-- sanitize_text (text_utils.py), modelled over Unicode code points
-- ------------------------------------------------------------------

/-- High surrogate code points U+D800–U+DBFF. -/
def isHighSurrogate (c : Nat) : Bool := 0xD800 ≤ c && c ≤ 0xDBFF

/-- Low surrogate code points U+DC00–U+DFFF. -/
def isLowSurrogate (c : Nat) : Bool := 0xDC00 ≤ c && c ≤ 0xDFFF

/-- Any surrogate code point. -/
def isSurrogate (c : Nat) : Bool := 0xD800 ≤ c && c ≤ 0xDFFF

/-- Pass 1 of `sanitize_text`: the index-based scan keeping properly paired
surrogates and dropping lone ones. Python strings may hold surrogate code
points, so this layer is modelled over `List Nat` of code points. -/
def removeLoneSurrogates : List Nat → List Nat
  | [] => []
  | [c] => if isHighSurrogate c then [] else if isLowSurrogate c then [] else [c]
  | c :: c2 :: rest2 =>
    if isHighSurrogate c then
      if isLowSurrogate c2 then c :: c2 :: removeLoneSurrogates rest2
      else removeLoneSurrogates (c2 :: rest2)
    else if isLowSurrogate c then removeLoneSurrogates (c2 :: rest2)
    else c :: removeLoneSurrogates (c2 :: rest2)

/-- Pass 2 of `sanitize_text`: `str.encode('utf-8')` raises exactly when a
surrogate code point is present (paired or not — CPython never encodes
surrogates in strict mode), in which case `errors='replace'` substitutes
`?` (U+003F) for every unencodable code point. -/
def encodeReplacePass (l : List Nat) : List Nat :=
  if l.any isSurrogate then l.map (fun c => if isSurrogate c then 0x3F else c) else l

/-- The control-character ranges removed by pass 3 of `sanitize_text`
(`[\x00-\x08\x0b-\x0c\x0e-\x1f\x7f-\x9f]`). -/
def isStrippedControl (c : Nat) : Bool :=
  c ≤ 0x08 || (0x0B ≤ c && c ≤ 0x0C) || (0x0E ≤ c && c ≤ 0x1F) ||
  (0x7F ≤ c && c ≤ 0x9F)

/-- `text_utils.sanitize_text`. -/
def sanitizeText (text : List Nat) : List Nat :=
  if text.isEmpty then text
  else (encodeReplacePass (removeLoneSurrogates text)).filter (fun c => !isStrippedControl c)

/-- Unicode control characters (category `Cc`). -/
def isControlCC (c : Nat) : Bool := c ≤ 0x1F || (0x7F ≤ c && c ≤ 0x9F)

-- ------------------------------------------------------------------
-- Lemma grouping (save_comprehensive_analysis_with_lemmatization,
-- grouping phase, spaCy unavailable)
-- ------------------------------------------------------------------

/-- The reserved grammatical-category names of the lemma-grouping guard. -/
def categoryNames : List Str :=
  ["article".toList, "preposition".toList, "conjunction".toList, "pronoun".toList,
   "adverb".toList, "adjective".toList, "noun".toList, "verb".toList]

/-- The per-word lemma assignment of the grouping loop (lines 945–993 of
`comprehensive_vocabulary_processor.py`, with spaCy absent so the
`word_to_spacy` map is empty): lowercase and trim, skip words shorter than
two characters, normalize via `DictionaryService.normalize_word_form`, set
`lemma = normalized_word` (line 979), skip short lemmas, and apply the
category-name guard, which assigns `normalized_word` to `lemma` — a value it
already holds. `none` models a `continue` (the word is skipped). -/
def assignLemma (word language : Str) : Option Str :=
  let wordLower := trimStr (toLowerStr word)
  if wordLower.isEmpty || wordLower.length < 2 then none
  else
    let normalizedWord := normalizeWordForm wordLower language
    let lem := normalizedWord
    if lem.isEmpty || lem.length < 2 then none
    else
      let lem := if categoryNames.contains (toLowerStr lem) then normalizedWord else lem
      some lem

/-- One surface form of a lemma group: the lowercase vocabulary key, the
original-capitalization first occurrence, its document frequency and its
recorded positions (the `(word, data, spacy_info)` tuples of the source). -/
structure WEntry where
  word : Str
  original : Str
  freq : Nat
  positions : List Nat
deriving DecidableEq

/-- The tier component of the canonical-form `sort_key` (lines 1019–1042):
0 for the lemma itself, 1/2 for infinitive-shaped forms in Romance
languages, 3 otherwise. -/
def sortTier (language lemmaKey : Str) (e : WEntry) : Nat :=
  let wl := trimStr (toLowerStr e.word)
  if wl == lemmaKey then 0
  else if language == itL &&
      (endAre.isSuffixOf wl || endEre.isSuffixOf wl || endIre.isSuffixOf wl ||
       ("irsi".toList).isSuffixOf wl || ("arsi".toList).isSuffixOf wl ||
       ("ersi".toList).isSuffixOf wl) then
    if endAre.isSuffixOf wl || endEre.isSuffixOf wl || endIre.isSuffixOf wl then 1 else 2
  else if language == esL &&
      (("ar".toList).isSuffixOf wl || ("er".toList).isSuffixOf wl ||
       ("ir".toList).isSuffixOf wl) then 1
  else if language == frL &&
      (("er".toList).isSuffixOf wl || ("ir".toList).isSuffixOf wl ||
       ("re".toList).isSuffixOf wl) then 1
  else 3

/-- The full `sort_key`: `(tier, -frequency)`. -/
def sortKey (language lemmaKey : Str) (e : WEntry) : Nat × Int :=
  (sortTier language lemmaKey e, -(e.freq : Int))

/-- Lexicographic comparison of sort keys (Python tuple ordering for
`list.sort(key=...)`). -/
def sortKeyLE (a b : Nat × Int) : Bool := a.1 < b.1 || (a.1 == b.1 && a.2 ≤ b.2)

/-- The result of the per-group canonicalization used at persistence time:
the sorted word list, the aggregate frequency (line 1144, sum over all
surface forms), and the `forms` morphology attribute (lines 1196–1199,
recorded when the group has more than one surface form). -/
structure GroupResult where
  sorted : List WEntry
  totalFreq : Nat
  forms : Option (List Str)
deriving DecidableEq

/-- The canonical-form selection and aggregation steps of
`save_comprehensive_analysis_with_lemmatization` for one lemma group:
stable-sort by `sort_key`, total frequency as the sum of the surface-form
frequencies, and `forms` listing every surface form when there are at least
two. -/
def processGroup (language lemmaKey : Str) (wl : List WEntry) : GroupResult :=
  let sorted := wl.mergeSort
    (fun a b => sortKeyLE (sortKey language lemmaKey a) (sortKey language lemmaKey b))
  { sorted := sorted,
    totalFreq := (sorted.map (fun e => e.freq)).sum,
    forms := if sorted.length > 1 then some (sorted.map (fun e => e.word)) else none }

-- ------------------------------------------------------------------
-- Occurrence sampling (lines 1263–1296)
-- ------------------------------------------------------------------

/-- Python slice `l[::k]`: every `k`-th element starting at index 0. -/
def takeEvery : List α → Nat → List α
  | [], _ => []
  | a :: rest, k => a :: takeEvery (rest.drop (k - 1)) k
termination_by l => l.length
decreasing_by simp [List.length_cons]; omega

/-- The even stride of the occurrence sampler:
`step = max(1, len(positions) // max_tokens_per_lemma)` with
`max_tokens_per_lemma = min(frequency, 20)`. -/
def strideFor (positions : List Nat) (frequency : Nat) : Nat :=
  max 1 (positions.length / min frequency 20)

/-- The sampled positions stored for one lemma:
`positions[::step][:max_tokens_per_lemma]`. -/
def sampledPositions (positions : List Nat) (frequency : Nat) : List Nat :=
  (takeEvery positions (strideFor positions frequency)).take (min frequency 20)

/-- A pending occurrence record (`token_records` entries before flushing):
`lemma_id` is `none` until the owning lemma row is flushed. -/
structure TokenRec where
  bookId : Nat
  lemmaId : Option Nat
  position : Nat
  origTok : Str
deriving DecidableEq

/-- The occurrence records created for one lemma group (lines 1263–1296):
even-stride samples over the canonical form's recorded positions, or up to
five frequency-based placeholders when no positions were recorded. -/
def tokenRecsForGroup (bookId : Nat) (lemmaId : Option Nat) (positions : List Nat)
    (frequency : Nat) (origTok : Str) : List TokenRec :=
  if !positions.isEmpty then
    (sampledPositions positions frequency).map
      (fun p => { bookId := bookId, lemmaId := lemmaId, position := p, origTok := origTok })
  else
    (List.range (min (min frequency 20) 5)).map
      (fun i => { bookId := bookId, lemmaId := lemmaId, position := i, origTok := origTok })

-- ------------------------------------------------------------------
-- Persistence (save_comprehensive_analysis_with_lemmatization,
-- upsert / batching phase, lines 1219–1381, and models/lemma.py)
-- ------------------------------------------------------------------

/-- A persisted `Lemma` row (`models/lemma.py`). Only the columns that the
upsert loop reads or writes for row identity and frequency are modelled:
`pos` / `definition` / `morphology` are written with the same deterministic
per-group values on every run and do not affect row identity or counts. -/
structure LemmaRow where
  id : Nat
  text : Str
  lang : Str
  freq : Nat
deriving DecidableEq

/-- A `lemma_records` entry: a new row collected for batch insertion, with
no id until `db.flush()`. -/
structure PendingLemma where
  text : Str
  lang : Str
  freq : Nat
deriving DecidableEq

/-- A persisted `Token` row (`models/lemma.py`). -/
structure TokenRow where
  bookId : Nat
  lemmaId : Nat
  position : Nat
  origTok : Str
deriving DecidableEq

/-- The values computed for one lemma group by the time the upsert runs:
`lemma_to_save`, the lowercase identity `lemma`, whether the proper-noun
capitalization branch fired (`is_proper_noun and canonical_word[0].isupper()`,
the same condition at lines 1213 and 1235), the aggregate `total_frequency`,
the canonical form's positions / frequency / original text, and the group's
word-form keys (used for `token_to_lemma_map`). -/
structure SaveGroup where
  toSave : Str
  low : Str
  setCap : Bool
  freq : Nat
  positions : List Nat
  canonFreq : Nat
  origTok : Str
  wordForms : List Str
deriving DecidableEq

/-- A `token_to_lemma_map` value: `lemma_id if existing else lemma` — an
integer id for groups that matched an existing row, the lemma text for new
groups. -/
abbrev LMapVal := Sum Nat Str

/-- The mutable state of the save loop. -/
structure SaveSt where
  committed : List LemmaRow
  pending : List PendingLemma
  tokPending : List TokenRec
  tokens : List TokenRow
  lmap : List (Str × LMapVal)
  nextId : Nat
  savedCount : Nat
deriving DecidableEq

/-- `db.query(Lemma).filter(Lemma.lemma == t, Lemma.language == lang).first()`
(only flushed rows are visible to the query). -/
def findRow (committed : List LemmaRow) (t lang : Str) : Option LemmaRow :=
  committed.find? (fun r => r.text == t && r.lang == lang)

/-- Mutation of the first row satisfying a predicate (the ORM object
returned by `.first()` is updated in place). -/
def updateFirstRow (p : LemmaRow → Bool) (f : LemmaRow → LemmaRow) :
    List LemmaRow → List LemmaRow
  | [] => []
  | r :: rs => if p r then f r :: rs else r :: updateFirstRow p f rs

/-- The update branch of the upsert (lines 1233–1244): rename to the
capitalized form when the proper-noun branch fired, and take the maximum of
the existing and new frequency — never the sum. -/
def updateRowWith (g : SaveGroup) (r : LemmaRow) : LemmaRow :=
  { r with
    text := if g.setCap then g.toSave else r.text,
    freq := max r.freq g.freq }

/-- Python dict assignment on `token_to_lemma_map`. -/
def dictInsert (m : List (Str × LMapVal)) (k : Str) (v : LMapVal) : List (Str × LMapVal) :=
  if m.any (fun e => e.1 == k) then m.map (fun e => if e.1 == k then (k, v) else e)
  else m ++ [(k, v)]

/-- Recording `token_to_lemma_map[str(word_form)] = v` for every word form
of the group (lines 1258–1261). -/
def recordLMap (m : List (Str × LMapVal)) (forms : List Str) (v : LMapVal) :
    List (Str × LMapVal) :=
  forms.foldl (fun acc w => dictInsert acc w v) m

/-- Resolution of one unresolved token record at flush time (lines
1311–1320 / 1363–1372): look the original token up in `token_to_lemma_map`;
a text value is re-queried against the flushed rows, an integer value never
matches the text column (so the record stays unresolved). -/
def resolveTok (lang : Str) (committed : List LemmaRow) (lmap : List (Str × LMapVal))
    (tr : TokenRec) : TokenRec :=
  match tr.lemmaId with
  | some _ => tr
  | none =>
    match lmap.find? (fun e => e.1 == tr.origTok) with
    | some e =>
      match e.2 with
      | Sum.inr t =>
        match findRow committed t lang with
        | some r => { tr with lemmaId := some r.id }
        | none => tr
      | Sum.inl _ => tr
    | none => tr

/-- Materialized rows for a flushed batch: sequential ids starting at the
session's next id. -/
def mkRows : Nat → List PendingLemma → List LemmaRow
  | _, [] => []
  | n, p :: rest =>
    { id := n, text := p.text, lang := p.lang, freq := p.freq } :: mkRows (n + 1) rest

/-- `db.flush()` on the collected `lemma_records`: rows become visible and
receive sequential ids. -/
def flushLemmas (s : SaveSt) : SaveSt :=
  { s with committed := s.committed ++ mkRows s.nextId s.pending, pending := [],
           nextId := s.nextId + s.pending.length }

/-- Materialization of the resolved token records that have a lemma id;
records that could not be resolved are never inserted. -/
def commitTokens (resolved : List TokenRec) : List TokenRow :=
  resolved.filterMap (fun tr => tr.lemmaId.map
    (fun i => { bookId := tr.bookId, lemmaId := i, position := tr.position,
                origTok := tr.origTok : TokenRow }))

/-- The every-100-lemmas batch commit (lines 1300–1335): lemma records are
flushed and token records resolved only when there are pending lemma
records, then all resolvable tokens are inserted. -/
def midFlush (lang : Str) (s : SaveSt) : SaveSt :=
  let s :=
    if !s.pending.isEmpty then
      let s' := flushLemmas s
      { s' with tokPending := s'.tokPending.map (resolveTok lang s'.committed s'.lmap) }
    else s
  { s with tokens := s.tokens ++ commitTokens s.tokPending, tokPending := [] }

/-- The final flush (lines 1354–1380): remaining lemma records are flushed,
then remaining token records are resolved unconditionally and the resolvable
ones inserted. -/
def finalFlush (lang : Str) (s : SaveSt) : SaveSt :=
  let s := if !s.pending.isEmpty then flushLemmas s else s
  let resolved := s.tokPending.map (resolveTok lang s.committed s.lmap)
  { s with tokens := s.tokens ++ commitTokens resolved, tokPending := [] }

/-- One iteration of the upsert loop (lines 1219–1346) for one lemma group:
exact-text lookup, lowercase-fallback lookup for capitalized proper nouns,
in-place update with `max` frequency merge or batch-insert collection,
`token_to_lemma_map` recording, occurrence-record collection, and the
batch commit every 100 groups. -/
def saveStep (lang : Str) (bookId : Nat) (s : SaveSt) (g : SaveGroup) : SaveSt :=
  let direct := findRow s.committed g.toSave lang
  let fallback :=
    if direct.isNone && !(g.toSave == g.low) then findRow s.committed g.low lang else none
  let s :=
    match direct with
    | some r =>
      { s with
        committed := updateFirstRow (fun r' => r'.text == g.toSave && r'.lang == lang)
          (updateRowWith g) s.committed,
        lmap := recordLMap s.lmap g.wordForms (Sum.inl r.id),
        tokPending := s.tokPending ++
          tokenRecsForGroup bookId (some r.id) g.positions g.canonFreq g.origTok }
    | none =>
      match fallback with
      | some r =>
        { s with
          committed := updateFirstRow (fun r' => r'.text == g.low && r'.lang == lang)
            (updateRowWith g) s.committed,
          lmap := recordLMap s.lmap g.wordForms (Sum.inl r.id),
          tokPending := s.tokPending ++
            tokenRecsForGroup bookId (some r.id) g.positions g.canonFreq g.origTok }
      | none =>
        { s with
          pending := s.pending ++ [({ text := g.toSave, lang := lang, freq := g.freq : PendingLemma })],
          lmap := recordLMap s.lmap g.wordForms (Sum.inr g.low),
          tokPending := s.tokPending ++
            tokenRecsForGroup bookId none g.positions g.canonFreq g.origTok }
  let s := { s with savedCount := s.savedCount + 1 }
  if s.savedCount % 100 == 0 then midFlush lang s else s

/-- The save loop's starting state over an existing store. -/
def initSaveSt (db : List LemmaRow) (startId : Nat) : SaveSt :=
  { committed := db, pending := [], tokPending := [], tokens := [], lmap := [],
    nextId := startId, savedCount := 0 }

/-- `save_comprehensive_analysis_with_lemmatization`, persistence phase: the
upsert loop over all lemma groups of one document followed by the final
flush. -/
def saveDocument (lang : Str) (bookId : Nat) (db : List LemmaRow) (startId : Nat)
    (gs : List SaveGroup) : SaveSt :=
  finalFlush lang (gs.foldl (saveStep lang bookId) (initSaveSt db startId))

-- ------------------------------------------------------------------
-- Cached normalization and the two-run pipeline (C8)
-- ------------------------------------------------------------------

/-- The process-wide `normalization_cache`, keyed by the
`f"{language}:{word}"` pair. -/
abbrev NormCache := List ((Str × Str) × Str)

/-- `DictionaryService._normalize_word_form` with its cache: check the cache
first, otherwise compute and record the result. -/
def normCoreCached (cache : NormCache) (word lang : Str) : Str × NormCache :=
  if word.isEmpty then (word, cache)
  else
    match cache.find? (fun e => e.1.1 == lang && e.1.2 == word) with
    | some e => (e.2, cache)
    | none =>
      let r := normCoreBody word lang
      (r, cache ++ [((lang, word), r)])

/-- `DictionaryService.normalize_word_form` threading the cache. -/
def normalizeWFCached (cache : NormCache) (word language : Str) : Str × NormCache :=
  if word.isEmpty then (word, cache)
  else
    let lang := toLowerStr (if language.isEmpty then enL else language)
    let w := toLowerStr (trimStr word)
    let rc := normCoreCached cache w lang
    ((if !rc.1.isEmpty then rc.1 else w), rc.2)

/-- Normalization of a token sequence threading the process-wide cache (the
grouping loop calls `normalize_word_form` once per word). -/
def normalizeAll (language : Str) : List Str → NormCache → List Str × NormCache
  | [], c => ([], c)
  | w :: ws, c =>
    let rc := normalizeWFCached c w language
    let rest := normalizeAll language ws rc.2
    (rc.1 :: rest.1, rest.2)

/-- One step of frequency aggregation per canonical lemma. -/
def bumpTally (acc : List (Str × Nat)) (k : Str) : List (Str × Nat) :=
  if acc.any (fun e => e.1 == k) then
    acc.map (fun e => if e.1 == k then (e.1, e.2 + 1) else e)
  else acc ++ [(k, 1)]

/-- Aggregate frequency per canonical lemma text, in first-seen order. -/
def tally (ls : List Str) : List (Str × Nat) := ls.foldl bumpTally []

/-- One run of the extraction → normalization → canonicalization pipeline:
canonical lemma texts with aggregate frequencies, plus the cache state it
leaves behind. -/
def pipelineOnce (text language : Str) (cache : NormCache) :
    List (Str × Nat) × NormCache :=
  let ws := extractAllWords text language
  let r := normalizeAll language ws cache
  (tally r.1, r.2)

-- ==================================================================
-- Character-table facts
-- ==================================================================

/-- Structure of `lowerChar`: it is the identity or a table pair applies. -/
lemma lowerChar_spec (c : Char) :
    lowerChar c = c ∨ ∃ p ∈ lowerPairs, p.1 = c ∧ lowerChar c = p.2 := by
  unfold lowerChar
  cases h : lowerPairs.find? (fun p => p.1 == c) with
  | none => exact Or.inl rfl
  | some p =>
    refine Or.inr ⟨p, List.mem_of_find?_eq_some h, ?_, rfl⟩
    have hp := List.find?_some h
    simpa using hp

/-- The lowercase table values are fixed points of `lowerChar`. -/
lemma lowerVals_fixed : ∀ p ∈ lowerPairs, lowerChar p.2 = p.2 := by decide

/-- Neither side of the lowercase table is whitespace. -/
lemma lowerPairs_nospace :
    ∀ p ∈ lowerPairs, isSpaceChar p.1 = false ∧ isSpaceChar p.2 = false := by decide

/-- The lowercase table values survive accent stripping. -/
lemma lowerVals_strip : ∀ p ∈ lowerPairs, stripAccentChar p.2 ≠ none := by decide

/-- The accent table values are fixed points of accent stripping. -/
lemma accentVals_fixed : ∀ p ∈ accentPairs, stripAccentChar p.2 = some p.2 := by decide

/-- Accent stripping of a lowercase-fixed character yields a
lowercase-fixed character (table part). -/
lemma accentVals_lower : ∀ p ∈ accentPairs, lowerChar p.1 = p.1 → lowerChar p.2 = p.2 := by
  decide

/-- Neither side of the accent table is whitespace. -/
lemma accentPairs_nospace :
    ∀ p ∈ accentPairs, isSpaceChar p.1 = false ∧ isSpaceChar p.2 = false := by decide

/-- `lowerChar` is idempotent. -/
lemma lowerChar_idem (c : Char) : lowerChar (lowerChar c) = lowerChar c := by
  rcases lowerChar_spec c with h | ⟨p, hp, _, he⟩
  · rw [h]; exact h
  · rw [he]; exact lowerVals_fixed p hp

/-- `lowerChar` preserves whitespace-ness. -/
lemma lowerChar_space (c : Char) : isSpaceChar (lowerChar c) = isSpaceChar c := by
  rcases lowerChar_spec c with h | ⟨p, hp, hc, he⟩
  · rw [h]
  · rw [he, ← hc, (lowerPairs_nospace p hp).1, (lowerPairs_nospace p hp).2]

/-- Structure of `stripAccentChar`. -/
lemma stripAccentChar_spec (c : Char) :
    stripAccentChar c = none ∨ stripAccentChar c = some c ∨
      ∃ p ∈ accentPairs, p.1 = c ∧ stripAccentChar c = some p.2 := by
  unfold stripAccentChar
  by_cases h : isCombining c = true
  · simp [h]
  · simp only [h, Bool.false_eq_true, if_false]
    cases hf : accentPairs.find? (fun p => p.1 == c) with
    | none => exact Or.inr (Or.inl rfl)
    | some p =>
      refine Or.inr (Or.inr ⟨p, List.mem_of_find?_eq_some hf, ?_, rfl⟩)
      have hp := List.find?_some hf
      simpa using hp

/-- Characters produced by accent stripping are accent-stripping fixed. -/
lemma stripAccentChar_fix {c d : Char} (h : stripAccentChar c = some d) :
    stripAccentChar d = some d := by
  rcases stripAccentChar_spec c with hn | hs | ⟨p, hp, _, he⟩
  · rw [hn] at h; cases h
  · rw [hs] at h; injection h with h1; subst h1; exact hs
  · rw [he] at h; injection h with h1; subst h1; exact accentVals_fixed p hp

/-- Accent stripping of a lowercase-fixed character yields a
lowercase-fixed character. -/
lemma stripAccentChar_lower_fixed {c d : Char} (hl : lowerChar c = c)
    (h : stripAccentChar c = some d) : lowerChar d = d := by
  rcases stripAccentChar_spec c with hn | hs | ⟨p, hp, hc, he⟩
  · rw [hn] at h; cases h
  · rw [hs] at h; injection h with h1; subst h1; exact hl
  · rw [he] at h; injection h with h1; subst h1
    exact accentVals_lower p hp (by rw [hc]; exact hl)

/-- Accent stripping preserves whitespace-ness of kept characters. -/
lemma stripAccentChar_space {c d : Char} (h : stripAccentChar c = some d) :
    isSpaceChar d = isSpaceChar c := by
  rcases stripAccentChar_spec c with hn | hs | ⟨p, hp, hc, he⟩
  · rw [hn] at h; cases h
  · rw [hs] at h; injection h with h1; subst h1; rfl
  · rw [he] at h; injection h with h1; subst h1
    rw [← hc, (accentPairs_nospace p hp).1, (accentPairs_nospace p hp).2]

/-- Lowercasing preserves survivability of accent stripping. -/
lemma lowerChar_strip_total {c : Char} (h : stripAccentChar c ≠ none) :
    stripAccentChar (lowerChar c) ≠ none := by
  rcases lowerChar_spec c with hc | ⟨p, hp, _, he⟩
  · rw [hc]; exact h
  · rw [he]; exact lowerVals_strip p hp

-- ==================================================================
-- Trim / lower / strip string lemmas
-- ==================================================================

/-- `trimStr` is right-trimming after left-trimming. -/
lemma trimStr_eq_rdrop (s : Str) :
    trimStr s = List.rdropWhile isSpaceChar (List.dropWhile isSpaceChar s) := rfl

/-- Trimming yields a sublist. -/
lemma trim_sublist (s : Str) : (trimStr s).Sublist s := by
  rw [trimStr_eq_rdrop]
  exact ((List.rdropWhile_prefix _ _).sublist).trans (List.dropWhile_sublist _)

/-- Trimming is idempotent. -/
lemma trim_idem (s : Str) : trimStr (trimStr s) = trimStr s := by
  rw [trimStr_eq_rdrop, trimStr_eq_rdrop]
  have hd : List.dropWhile isSpaceChar
      (List.rdropWhile isSpaceChar (List.dropWhile isSpaceChar s)) =
      List.rdropWhile isSpaceChar (List.dropWhile isSpaceChar s) := by
    apply List.dropWhile_eq_self_iff.mpr
    intro hl
    rcases List.rdropWhile_prefix isSpaceChar (List.dropWhile isSpaceChar s) with ⟨t, ht⟩
    have h0 : 0 < (List.dropWhile isSpaceChar s).length := by
      rw [← ht, List.length_append]; omega
    have hv := List.dropWhile_get_zero_not isSpaceChar s h0
    have hget : (List.rdropWhile isSpaceChar (List.dropWhile isSpaceChar s)).get ⟨0, hl⟩ =
        (List.dropWhile isSpaceChar s).get ⟨0, h0⟩ := by
      simp only [List.get_eq_getElem]
      exact (List.rdropWhile_prefix isSpaceChar (List.dropWhile isSpaceChar s)).getElem hl
    rw [hget]
    exact hv
  rw [hd, List.rdropWhile_idempotent]

/-- A character map that preserves whitespace-ness commutes with trimming. -/
lemma trim_map {f : Char → Char} (hf : ∀ c, isSpaceChar (f c) = isSpaceChar c) (s : Str) :
    trimStr (s.map f) = (trimStr s).map f := by
  have hfe : (isSpaceChar ∘ f) = isSpaceChar := funext hf
  rw [trimStr_eq_rdrop, trimStr_eq_rdrop, List.dropWhile_map, hfe]
  unfold List.rdropWhile
  rw [← List.map_reverse, List.dropWhile_map, hfe, List.map_reverse]

/-- All characters of a lowercased string are lowercase-fixed. -/
lemma lowerFixed_toLower (s : Str) : ∀ c ∈ toLowerStr s, lowerChar c = c := by
  intro c hc
  rcases List.mem_map.mp hc with ⟨a, _, rfl⟩
  exact lowerChar_idem a

/-- Lowercasing a string of lowercase-fixed characters is the identity. -/
lemma toLower_of_lowerFixed {s : Str} (h : ∀ c ∈ s, lowerChar c = c) :
    toLowerStr s = s := by
  unfold toLowerStr
  rw [List.map_congr_left h]
  exact List.map_id s

/-- Accent stripping twice equals accent stripping once. -/
lemma strip_strip (s : Str) : stripAccents (stripAccents s) = stripAccents s := by
  induction s with
  | nil => rfl
  | cons c rest ih =>
    cases hh : stripAccentChar c with
    | none => simpa [stripAccents, List.filterMap_cons, hh] using ih
    | some d =>
      simpa [stripAccents, List.filterMap_cons, hh, stripAccentChar_fix hh] using ih

/-- Accent stripping keeps lowercase-fixedness. -/
lemma lowerFixed_strip {s : Str} (h : ∀ c ∈ s, lowerChar c = c) :
    ∀ c ∈ stripAccents s, lowerChar c = c := by
  intro d hd
  rcases List.mem_filterMap.mp hd with ⟨a, ha, hsa⟩
  exact stripAccentChar_lower_fixed (h a ha) hsa

/-- On strings with no combining marks, accent stripping is the per-character
map `stripD`. -/
def stripD (c : Char) : Char := (stripAccentChar c).getD c

/-- `stripD` preserves whitespace-ness. -/
lemma stripD_space (c : Char) : isSpaceChar (stripD c) = isSpaceChar c := by
  unfold stripD
  rcases stripAccentChar_spec c with hn | hs | ⟨p, hp, hc, he⟩
  · rw [hn, Option.getD_none]
  · rw [hs, Option.getD_some]
  · rw [he, Option.getD_some]
    rw [← hc, (accentPairs_nospace p hp).1, (accentPairs_nospace p hp).2]

/-- On strings whose characters all survive stripping, `stripAccents` is the
map of `stripD`. -/
lemma stripAccents_eq_map {s : Str} (h : ∀ c ∈ s, stripAccentChar c ≠ none) :
    stripAccents s = s.map stripD := by
  induction s with
  | nil => rfl
  | cons c rest ih =>
    have hc := h c (List.mem_cons_self c rest)
    have hrest := fun d hd => h d (List.mem_cons_of_mem c hd)
    cases hh : stripAccentChar c with
    | none => exact absurd hh hc
    | some d =>
      simp only [stripAccents, List.filterMap_cons, hh, List.map_cons]
      rw [show stripD c = d from by rw [stripD, hh, Option.getD_some]]
      exact congrArg (d :: ·) (ih hrest)

/-- Stripping a no-combining-marks string preserves length positivity. -/
lemma strip_ne_nil {s : Str} (h : ∀ c ∈ s, stripAccentChar c ≠ none) (hne : s ≠ []) :
    stripAccents s ≠ [] := by
  rw [stripAccents_eq_map h]
  simpa using hne

/-- The characters of a trimmed-and-lowercased string all survive stripping
when those of the underlying string do. -/
lemma stripTotal_toLower_trim {x : Str} (h : ∀ c ∈ x, stripAccentChar c ≠ none) :
    ∀ c ∈ toLowerStr (trimStr x), stripAccentChar c ≠ none := by
  intro c hc
  rcases List.mem_map.mp hc with ⟨a, ha, rfl⟩
  exact lowerChar_strip_total (h a ((trim_sublist x).subset ha))

/-- A trimmed-and-lowercased string is trim-fixed. -/
lemma trim_toLower_trim (x : Str) :
    trimStr (toLowerStr (trimStr x)) = toLowerStr (trimStr x) := by
  unfold toLowerStr
  rw [trim_map lowerChar_space, trim_idem]

/-- Fixed-point property: `normalize_word_form` leaves a nonempty, trimmed,
lowercase, accent-free word unchanged for non-Italian languages. -/
lemma normalizeWordForm_fixed {language : Str}
    (hlang : toLowerStr (if language.isEmpty then enL else language) ≠ itL)
    (y : Str) (hyne : y ≠ []) (hylow : ∀ c ∈ y, lowerChar c = c)
    (hytrim : trimStr y = y) (hystrip : stripAccents y = y) :
    normalizeWordForm y language = y := by
  have hyE : y.isEmpty = false := by simpa using hyne
  have hlgne : (toLowerStr (if language.isEmpty then enL else language) == itL) = false :=
    beq_eq_false_iff_ne.mpr hlang
  simp only [normalizeWordForm, hyE, Bool.false_eq_true, if_false, hytrim,
    toLower_of_lowerFixed hylow, normCore, normCoreBody, hystrip, beq_self_eq_true,
    Bool.not_true, Bool.and_false, if_true]
  simp only [hlgne, hyE]
  simp [hyE]

/-- Structure of `normalize_word_form` for a nonempty input over a
non-Italian language. -/
lemma normalizeWordForm_eq_of_ne_it {x language : Str}
    (hlang : toLowerStr (if language.isEmpty then enL else language) ≠ itL)
    (hxne : x.isEmpty = false) :
    normalizeWordForm x language =
      (if !(stripAccents (toLowerStr (trimStr x))).isEmpty &&
          !(stripAccents (toLowerStr (trimStr x)) == toLowerStr (trimStr x))
       then stripAccents (toLowerStr (trimStr x))
       else toLowerStr (trimStr x)) := by
  have hlgne : (toLowerStr (if language.isEmpty then enL else language) == itL) = false :=
    beq_eq_false_iff_ne.mpr hlang
  simp only [normalizeWordForm, hxne, Bool.false_eq_true, if_false, normCore, normCoreBody,
    hlgne]
  by_cases hwe : (toLowerStr (trimStr x)).isEmpty = true
  · simp [hwe, List.isEmpty_iff.mp hwe, stripAccents]
  · have hwf : (toLowerStr (trimStr x)).isEmpty = false := by
      cases h : (toLowerStr (trimStr x)).isEmpty
      · rfl
      · exact absurd h hwe
    simp only [hwf, Bool.false_eq_true, if_false]
    by_cases hbr : (!(stripAccents (toLowerStr (trimStr x))).isEmpty &&
        !(stripAccents (toLowerStr (trimStr x)) == toLowerStr (trimStr x))) = true
    · simp only [hbr, if_true]
      have : (stripAccents (toLowerStr (trimStr x))).isEmpty = false := by
        cases h : (stripAccents (toLowerStr (trimStr x))).isEmpty
        · rfl
        · rw [h] at hbr; simp at hbr
      simp [this]
    · have hbf := Bool.eq_false_iff.mpr hbr
      simp [hbf, hwf]

/-- C4 amended, main statement. -/
theorem normalize_idempotent_non_italian (x language : Str)
    (hlang : toLowerStr (if language.isEmpty then enL else language) ≠ itL)
    (hx : ∀ c ∈ x, stripAccentChar c ≠ none) :
    normalizeWordForm (normalizeWordForm x language) language =
      normalizeWordForm x language := by
  by_cases hxe : x.isEmpty = true
  · rw [List.isEmpty_iff.mp hxe]
    rfl
  · have hxne : x.isEmpty = false := Bool.eq_false_iff.mpr hxe
    have hwlow : ∀ c ∈ toLowerStr (trimStr x), lowerChar c = c := lowerFixed_toLower _
    have hwtrim : trimStr (toLowerStr (trimStr x)) = toLowerStr (trimStr x) :=
      trim_toLower_trim x
    have hwtotal : ∀ c ∈ toLowerStr (trimStr x), stripAccentChar c ≠ none :=
      stripTotal_toLower_trim hx
    rw [normalizeWordForm_eq_of_ne_it hlang hxne]
    by_cases hbr : (!(stripAccents (toLowerStr (trimStr x))).isEmpty &&
        !(stripAccents (toLowerStr (trimStr x)) == toLowerStr (trimStr x))) = true
    · rw [if_pos hbr]
      have hyne : stripAccents (toLowerStr (trimStr x)) ≠ [] := by
        intro hemp
        rw [hemp] at hbr
        simp [stripAccents] at hbr
      apply normalizeWordForm_fixed hlang _ hyne
      · exact lowerFixed_strip hwlow
      · rw [stripAccents_eq_map hwtotal, trim_map stripD_space, hwtrim]
      · exact strip_strip _
    · rw [if_neg (by simpa using hbr)]
      by_cases hwe : toLowerStr (trimStr x) = []
      · rw [hwe]
        rfl
      · have hse : stripAccents (toLowerStr (trimStr x)) = toLowerStr (trimStr x) := by
          have hne := strip_ne_nil hwtotal hwe
          cases h1 : (stripAccents (toLowerStr (trimStr x))).isEmpty with
          | true => exact absurd (List.isEmpty_iff.mp h1) hne
          | false =>
            cases h2 : (stripAccents (toLowerStr (trimStr x)) == toLowerStr (trimStr x)) with
            | true => exact beq_iff_eq.mp h2
            | false => rw [h1, h2] at hbr; simp at hbr
        exact normalizeWordForm_fixed hlang _ hwe hwlow hwtrim hse

/-- C4, counterexample: normalization is not idempotent. For Italian, the
accented `parlò` first normalizes to the accent-stripped `parlo`; a second
application then strips the clitic-looking ending `lo`, producing the
infinitive-looking `pare`. -/
theorem normalize_idempotence_fails_on_parlo :
    normalizeWordForm (normalizeWordForm ("parlò".toList) itL) itL ≠
      normalizeWordForm ("parlò".toList) itL := by decide

/-- C4, witness for the amended theorem at `café` / French. -/
theorem normalize_idempotent_non_italian_witness :
    normalizeWordForm (normalizeWordForm ("café".toList) frL) frL =
      normalizeWordForm ("café".toList) frL :=
  normalize_idempotent_non_italian ("café".toList) frL (by decide) (by decide)

-- ------------------------------------------------------------------
-- C9: empty or non-alphabetic input extracts to the empty sequence
-- ------------------------------------------------------------------

/-- Characters of a whitespace-split token come from the split string or
the accumulator. -/
lemma splitWsAux_chars {w : Str} :
    ∀ {s acc : Str}, w ∈ splitWsAux s acc → ∀ c ∈ w, c ∈ s ∨ c ∈ acc := by
  intro s
  induction s with
  | nil =>
    intro acc hw c hc
    by_cases hae : acc.isEmpty
    · simp [splitWsAux, hae] at hw
    · simp only [splitWsAux, hae, Bool.false_eq_true, if_false, List.mem_singleton] at hw
      subst hw
      exact Or.inr (List.mem_reverse.mp hc)
  | cons a rest ih =>
    intro acc hw c hc
    simp only [splitWsAux] at hw
    by_cases hsp : isSpaceChar a = true
    · rw [if_pos hsp] at hw
      by_cases hae : acc.isEmpty
      · rw [if_pos hae] at hw
        rcases ih hw c hc with h | h
        · exact Or.inl (List.mem_cons_of_mem a h)
        · simp at h
      · rw [if_neg hae] at hw
        rcases List.mem_cons.mp hw with h | h
        · subst h
          exact Or.inr (List.mem_reverse.mp hc)
        · rcases ih h c hc with h2 | h2
          · exact Or.inl (List.mem_cons_of_mem a h2)
          · simp at h2
    · rw [if_neg hsp] at hw
      rcases ih hw c hc with h | h
      · exact Or.inl (List.mem_cons_of_mem a h)
      · rcases List.mem_cons.mp h with h2 | h2
        · rw [h2]
          exact Or.inl (List.mem_cons_self a rest)
        · exact Or.inr h2

/-- Characters of a whitespace-split token come from the split string. -/
lemma splitWs_chars {s w : Str} (hw : w ∈ splitWs s) : ∀ c ∈ w, c ∈ s := by
  intro c hc
  rcases splitWsAux_chars hw c hc with h | h
  · exact h
  · simp at h

/-- The punctuation-to-space substitution keeps non-alphabetic strings
non-alphabetic. -/
lemma subNonWord_no_alpha {text : Str} (h : ∀ c ∈ text, isAlphaChar c = false)
    (keepApos : Bool) : ∀ c ∈ subNonWordToSpace keepApos text, isAlphaChar c = false := by
  intro c hc
  simp only [subNonWordToSpace, List.mem_map] at hc
  rcases hc with ⟨a, ha, rfl⟩
  by_cases hk : (isWordChar a || isSpaceChar a || (keepApos && a == aposC)) = true
  · rw [if_pos hk]
    exact h a ha
  · rw [if_neg hk]
    decide

/-- A token without alphabetic characters is dropped by the final filter. -/
lemma tokenKeep_false {w : Str} (h : ∀ c ∈ w, isAlphaChar c = false) :
    tokenKeep w = false := by
  have hany : w.any isAlphaChar = false := by
    rw [List.any_eq_false]
    intro c hc
    rw [h c hc]
    exact Bool.false_ne_true
  have hsubset : ∀ c ∈ w.filter (fun c => !(c == aposC)), isAlphaChar c = false :=
    fun c hc => h c (List.mem_of_mem_filter hc)
  unfold tokenKeep
  cases hne : w.filter (fun c => !(c == aposC)) with
  | nil => simp [hne, hany]
  | cons a t =>
    have ha : isAlphaChar a = false := hsubset a (by rw [hne]; exact List.mem_cons_self a t)
    simp [hne, hany, List.all_cons, ha]

/-- C9, main theorem: on input that is empty or contains no alphabetic
characters, word extraction returns the empty token sequence (the function
is total, so no error is raised). -/
theorem extract_empty_on_no_alpha (text language : Str)
    (h : ∀ c ∈ text, isAlphaChar c = false) :
    extractAllWords text language = [] := by
  have hfil : ∀ (ws : List Str), (∀ w ∈ ws, ∀ c ∈ w, isAlphaChar c = false) →
      ws.filter tokenKeep = [] := by
    intro ws hws
    rw [List.filter_eq_nil_iff]
    intro w hw
    rw [tokenKeep_false (hws w hw)]
    exact Bool.false_ne_true
  have hmerge : mergeSplitWords [] language = [] := by
    unfold mergeSplitWords
    simp
  have htoks : ∀ (k : Bool), ∀ w ∈ splitWs (subNonWordToSpace k text),
      ∀ c ∈ w, isAlphaChar c = false :=
    fun k w hw c hc => subNonWord_no_alpha h k c (splitWs_chars hw c hc)
  have hmapIt : ∀ w ∈ (splitWs (subNonWordToSpace true text)).map keepItFrChars,
      ∀ c ∈ w, isAlphaChar c = false := by
    intro w hw c hc
    rcases List.mem_map.mp hw with ⟨w0, hw0, rfl⟩
    exact htoks true w0 hw0 c (List.mem_of_mem_filter hc)
  have hmapEs : ∀ w ∈ (splitWs (subNonWordToSpace false text)).map keepEsDeChars,
      ∀ c ∈ w, isAlphaChar c = false := by
    intro w hw c hc
    rcases List.mem_map.mp hw with ⟨w0, hw0, rfl⟩
    exact htoks false w0 hw0 c (List.mem_of_mem_filter hc)
  simp only [extractAllWords]
  by_cases h1 : (language == itL) = true
  · rw [if_pos h1, hfil _ hmapIt]
    exact hmerge
  · rw [if_neg h1]
    by_cases h2 : (language == frL) = true
    · rw [if_pos h2, hfil _ hmapIt]
      exact hmerge
    · rw [if_neg h2]
      by_cases h3 : (language == esL || language == deL) = true
      · rw [if_pos h3, hfil _ hmapEs]
        exact hmerge
      · rw [if_neg h3, hfil _ (htoks false)]
        exact hmerge

/-- C9, witness at a concrete non-alphabetic input. -/
theorem extract_empty_on_no_alpha_witness :
    extractAllWords ("123 !!! __ 45".toList) enL = [] :=
  extract_empty_on_no_alpha ("123 !!! __ 45".toList) enL (by decide)

-- ------------------------------------------------------------------
-- C2: the reserved-category-name guard
-- ------------------------------------------------------------------

/-- C2: evaluation at the failing input. The English word `preposition`
(normalization is the identity here) is assigned to itself as the stored
lemma text even though it is a reserved grammatical-category name: the guard
`lemma = normalized_word` rebinds a variable that already holds
`normalized_word`, so the canonical surface form is never substituted and
the category name is persisted. -/
theorem category_name_stored_as_lemma :
    assignLemma ("preposition".toList) enL = some ("preposition".toList) ∧
      ("preposition".toList) ∈ categoryNames := by decide

-- ------------------------------------------------------------------
-- C10: sanitize_text
-- ------------------------------------------------------------------

/-- C10, counterexample: a properly paired surrogate pair (U+D83E U+DD14)
survives pass 1, but CPython refuses to UTF-8-encode any surrogate, so the
`errors='replace'` pass turns the kept pair into two `?` characters — the
pair is not preserved in the output. -/
theorem sanitize_text_replaces_kept_pair :
    sanitizeText [0xD83E, 0xDD14] = [0x3F, 0x3F] ∧
      sanitizeText [0xD83E, 0xDD14] ≠ [0xD83E, 0xDD14] := by decide

/-- Pass 1 produces a subsequence of the input. -/
lemma removeLone_sublist (l : List Nat) : (removeLoneSurrogates l).Sublist l := by
  induction l using removeLoneSurrogates.induct with
  | case1 => exact List.Sublist.refl []
  | case2 c h1 =>
    unfold removeLoneSurrogates
    rw [if_pos h1]
    exact List.nil_sublist _
  | case3 c h1 h2 =>
    unfold removeLoneSurrogates
    rw [if_neg h1, if_pos h2]
    exact List.nil_sublist _
  | case4 c h1 h2 =>
    unfold removeLoneSurrogates
    rw [if_neg h1, if_neg h2]
  | case5 c c2 rest2 h1 h2 ih =>
    unfold removeLoneSurrogates
    rw [if_pos h1, if_pos h2]
    exact (ih.cons₂ c2).cons₂ c
  | case6 c c2 rest2 h1 h2 ih =>
    unfold removeLoneSurrogates
    rw [if_pos h1, if_neg h2]
    exact ih.cons c
  | case7 c c2 rest2 h1 h2 ih =>
    unfold removeLoneSurrogates
    rw [if_neg h1, if_pos h2]
    exact ih.cons c
  | case8 c c2 rest2 h1 h2 ih =>
    unfold removeLoneSurrogates
    rw [if_neg h1, if_neg h2]
    exact ih.cons₂ c

/-- A sublist of `l` whose elements are fixed by `f` is a sublist of
`l.map f`. -/
lemma sublist_map_of_fixed {l₁ l₂ : List Nat} {f : Nat → Nat} (h : l₁.Sublist l₂)
    (hf : ∀ x ∈ l₁, f x = x) : l₁.Sublist (l₂.map f) := by
  induction h with
  | slnil => simp
  | cons a _ ih => exact (ih hf).cons (f a)
  | cons₂ a _ ih =>
    rw [List.map_cons, hf a (List.mem_cons_self a _)]
    exact (ih (fun x hx => hf x (List.mem_cons_of_mem _ hx))).cons₂ a

/-- C10, amended: the sanitized text contains no surrogate code point at all
(lone surrogates are dropped, paired surrogates are replaced by `?` during
the encode-with-replacement step), contains no control characters other than
tab, newline, and carriage return, and is an in-order subsequence of the
input with surrogates replaced by `?` — hence it is always UTF-8
encodable. -/
theorem sanitize_text_amended (l : List Nat) :
    (∀ c ∈ sanitizeText l, isSurrogate c = false) ∧
    (∀ c ∈ sanitizeText l, isControlCC c = true → c = 9 ∨ c = 10 ∨ c = 13) ∧
    (sanitizeText l).Sublist (l.map (fun c => if isSurrogate c then 0x3F else c)) := by
  by_cases hle : l.isEmpty = true
  · rw [List.isEmpty_iff.mp hle]
    refine ⟨?_, ?_, ?_⟩ <;> simp [sanitizeText]
  · have hl : sanitizeText l =
        (encodeReplacePass (removeLoneSurrogates l)).filter (fun c => !isStrippedControl c) := by
      unfold sanitizeText
      rw [if_neg hle]
    have hERsub : (encodeReplacePass (removeLoneSurrogates l)).Sublist
        (l.map (fun c => if isSurrogate c then 0x3F else c)) := by
      unfold encodeReplacePass
      by_cases hany : (removeLoneSurrogates l).any isSurrogate = true
      · rw [if_pos hany]
        exact (removeLone_sublist l).map _
      · rw [if_neg hany]
        apply sublist_map_of_fixed (removeLone_sublist l)
        intro x hx
        have := List.any_eq_false.mp (Bool.eq_false_iff.mpr hany) x hx
        simp only [Bool.not_eq_true] at this
        rw [if_neg (by simp [this])]
    have hERnosur : ∀ c ∈ encodeReplacePass (removeLoneSurrogates l), isSurrogate c = false := by
      unfold encodeReplacePass
      by_cases hany : (removeLoneSurrogates l).any isSurrogate = true
      · rw [if_pos hany]
        intro c hc
        rcases List.mem_map.mp hc with ⟨a, _, rfl⟩
        by_cases hsa : isSurrogate a = true
        · rw [if_pos hsa]
          decide
        · rw [if_neg hsa]
          exact Bool.eq_false_iff.mpr hsa
      · rw [if_neg hany]
        intro c hc
        have := List.any_eq_false.mp (Bool.eq_false_iff.mpr hany) c hc
        simp only [Bool.not_eq_true] at this
        exact this
    refine ⟨?_, ?_, ?_⟩
    · intro c hc
      rw [hl] at hc
      exact hERnosur c (List.mem_of_mem_filter hc)
    · intro c hc hctrl
      rw [hl] at hc
      have hkeep := List.of_mem_filter hc
      simp only [Bool.not_eq_true'] at hkeep
      simp only [isStrippedControl, Bool.or_eq_false_iff, Bool.and_eq_false_iff,
        decide_eq_false_iff_not, not_le, Nat.not_le] at hkeep
      simp only [isControlCC, Bool.or_eq_true_iff, Bool.and_eq_true_iff,
        decide_eq_true_eq] at hctrl
      omega
    · rw [hl]
      exact (List.filter_sublist _).trans hERsub

-- ------------------------------------------------------------------
-- C3: occurrence cap and even-stride sampling
-- ------------------------------------------------------------------

/-- Indexing into `takeEvery`: the `i`-th kept element is the `i·k`-th
element of the underlying list. -/
lemma takeEvery_getElem? (k : Nat) (hk : 1 ≤ k) :
    ∀ (i : Nat) (l : List Nat), (takeEvery l k)[i]? = l[i * k]? := by
  intro i
  induction i with
  | zero =>
    intro l
    cases l with
    | nil => simp [takeEvery]
    | cons a rest => simp [takeEvery]
  | succ n ih =>
    intro l
    cases l with
    | nil => simp [takeEvery]
    | cons a rest =>
      have h1 : (n + 1) * k = ((k - 1) + n * k) + 1 := by
        have h2 : (n + 1) * k = n * k + k := by ring
        omega
      rw [takeEvery, h1, List.getElem?_cons_succ, List.getElem?_cons_succ, ih, List.getElem?_drop]

/-- C3, main theorem: the occurrence records stored for one lemma group
never exceed the cap of 20, and when positions were recorded, the stored
positions are the even-stride sample: the `i`-th stored position is the
`i · step`-th recorded position with
`step = max(1, len(positions) // min(frequency, 20))`. -/
theorem occurrence_cap_and_stride (bookId : Nat) (lemmaId : Option Nat)
    (positions : List Nat) (frequency : Nat) (origTok : Str)
    (hf : 1 ≤ frequency) :
    (tokenRecsForGroup bookId lemmaId positions frequency origTok).length ≤ 20 ∧
    (∀ i : Nat, i < (sampledPositions positions frequency).length →
      (sampledPositions positions frequency)[i]? =
        positions[i * strideFor positions frequency]?) ∧
    (!positions.isEmpty →
      (tokenRecsForGroup bookId lemmaId positions frequency origTok).map
          (fun t => t.position) = sampledPositions positions frequency) := by
  refine ⟨?_, ?_, ?_⟩
  · unfold tokenRecsForGroup
    by_cases hp : !positions.isEmpty
    · rw [if_pos hp, List.length_map]
      unfold sampledPositions
      calc ((takeEvery positions (strideFor positions frequency)).take (min frequency 20)).length
          ≤ min frequency 20 := by rw [List.length_take]; omega
        _ ≤ 20 := Nat.min_le_right _ _
    · rw [if_neg hp, List.length_map, List.length_range]
      omega
  · intro i hi
    unfold sampledPositions at hi ⊢
    rw [List.getElem?_take]
    rw [if_pos (by rw [List.length_take] at hi; omega)]
    exact takeEvery_getElem? (strideFor positions frequency) (Nat.le_max_left 1 _) i positions
  · intro hp
    unfold tokenRecsForGroup
    rw [if_pos hp, List.map_map]
    have hcomp : ((fun (t : TokenRec) => t.position) ∘
        (fun p => ({ bookId := bookId, lemmaId := lemmaId, position := p,
                     origTok := origTok } : TokenRec))) = id := rfl
    rw [hcomp, List.map_id]

/-- C3, witness: a lemma with 25 recorded positions and frequency 500 stores
at most 20 evenly strided positions. -/
theorem occurrence_cap_and_stride_witness :
    (tokenRecsForGroup 1 (some 1) (List.range 25) 500 ("casa".toList)).length ≤ 20 ∧
    (∀ i : Nat, i < (sampledPositions (List.range 25) 500).length →
      (sampledPositions (List.range 25) 500)[i]? =
        (List.range 25)[i * strideFor (List.range 25) 500]?) ∧
    (!(List.range 25).isEmpty →
      (tokenRecsForGroup 1 (some 1) (List.range 25) 500 ("casa".toList)).map
          (fun t => t.position) = sampledPositions (List.range 25) 500) :=
  occurrence_cap_and_stride 1 (some 1) (List.range 25) 500 ("casa".toList) (by decide)

-- ------------------------------------------------------------------
-- C6: aggregate frequency and recorded forms
-- ------------------------------------------------------------------

/-- C6, main theorem: the aggregate frequency of a lemma group equals the
sum of the individual surface-form frequencies (for a new lemma this value
is persisted as `global_frequency`), and when the group has more than one
surface form, `forms` is recorded and contains every surface form. -/
theorem group_frequency_sum_and_forms (language lemmaKey : Str) (wl : List WEntry)
    (hlen : wl.length > 1) :
    (processGroup language lemmaKey wl).totalFreq = (wl.map (fun e => e.freq)).sum ∧
    ∃ fs, (processGroup language lemmaKey wl).forms = some fs ∧
      ∀ e ∈ wl, e.word ∈ fs := by
  have hperm := List.mergeSort_perm wl
    (fun a b => sortKeyLE (sortKey language lemmaKey a) (sortKey language lemmaKey b))
  constructor
  · exact (hperm.map (fun e => e.freq)).sum_eq
  · refine ⟨(processGroup language lemmaKey wl).sorted.map (fun e => e.word), ?_, ?_⟩
    · simp only [processGroup]
      rw [if_pos]
      rw [hperm.length_eq]
      exact hlen
    · intro e he
      exact List.mem_map_of_mem _ (hperm.mem_iff.mpr he)

/-- Surface-form fixture for the C6 witness. -/
def wParlare : WEntry :=
  { word := "parlare".toList, original := "parlare".toList, freq := 2, positions := [0] }

/-- Second surface-form fixture for the C6 witness. -/
def wParlavano : WEntry :=
  { word := "parlavano".toList, original := "parlavano".toList, freq := 3, positions := [1] }

/-- C6, witness: two conjugated forms grouped under one lemma. -/
theorem group_frequency_sum_and_forms_witness :
    (processGroup itL ("parlare".toList) [wParlare, wParlavano]).totalFreq =
      ([wParlare, wParlavano].map (fun e => e.freq)).sum ∧
    ∃ fs, (processGroup itL ("parlare".toList) [wParlare, wParlavano]).forms = some fs ∧
      ∀ e ∈ [wParlare, wParlavano], e.word ∈ fs :=
  group_frequency_sum_and_forms itL ("parlare".toList) [wParlare, wParlavano] (by decide)

-- ------------------------------------------------------------------
-- C5: sanitizer rejections
-- ------------------------------------------------------------------

/-- A frequency oracle assigning every word the lowest possible Zipf score:
the most rejection-prone instantiation of the external `wordfreq` data. -/
def zipfZero : Str → Rat := fun _ => 0

/-- C5, counterexample: a candidate translation that equals the source
case-insensitively is accepted whenever basic cleaning alters it. Here the
candidate and the source are both the string `hello there.`; cleaning strips
the trailing period, the equality check then compares `hello there` with
`hello there.` and fails, and every later check passes (even under the
most rejection-prone frequency oracle), so the sanitizer returns
`hello there` instead of the empty string. -/
theorem sanitize_accepts_candidate_equal_to_source :
    sanitizeTranslation zipfZero ("hello there.".toList) ("hello there.".toList) itL false =
      ("hello there".toList) ∧
    sanitizeTranslation zipfZero ("hello there.".toList) ("hello there.".toList) itL false ≠
      [] := by
  constructor
  · decide
  · decide

/-- The bad-translation heuristic rejects candidates without alphabetic
characters. -/
lemma bad_of_no_alpha (zipf : Str → Rat) (t' s : Str)
    (h : ∀ c ∈ t', isAlphaChar c = false) :
    looksLikeBadTranslation zipf t' s = true := by
  unfold looksLikeBadTranslation
  by_cases hte : t'.isEmpty = true
  · rw [if_pos hte]
  · rw [if_neg hte]
    by_cases hd : (trimStr t' == ['-'] || trimStr t' == ['-', '-']) = true
    · rw [if_pos hd]
    · rw [if_neg hd]
      have hany : (trimStr t').any isAlphaChar = false := by
        rw [List.any_eq_false]
        intro c hc
        rw [h c ((trim_sublist t').subset hc)]
        exact Bool.false_ne_true
      rw [if_pos (by rw [hany]; rfl)]

/-- The bad-translation heuristic rejects the empty candidate. -/
lemma bad_nil (zipf : Str → Rat) (s : Str) : looksLikeBadTranslation zipf [] s = true := by
  unfold looksLikeBadTranslation
  exact if_pos rfl

/-- The cleaning stage maps the empty candidate to the empty string. -/
lemma cleanTranslationText_nil : cleanTranslationText [] = [] := rfl

/-- The full cleaning-and-trimming stage maps the empty candidate to the
empty string. -/
lemma sanitizeStage_nil (s : Str) : sanitizeStage [] s = [] := rfl

/-- The shared tail of the sanitizer once the candidate has been blanked:
the bad-translation check fires on the empty string and the final cleanup
keeps it empty. -/
lemma sanitize_tail_blank (zipf : Str → Rat) (s : Str) (ab : Bool) :
    (if ((cleanTranslationText
          (if looksLikeBadTranslation zipf [] s = true then [] else [])).isEmpty && !ab) = true
     then ([] : Str)
     else cleanTranslationText
          (if looksLikeBadTranslation zipf [] s = true then [] else [])) = [] := by
  rw [if_pos (bad_nil zipf s), cleanTranslationText_nil]
  cases ab <;> rfl

/-- C5, amended: the sanitizer returns the empty string for every candidate
that is empty, whose cleaned form starts with a morphological-marker prefix,
whose cleaned form equals the source case-insensitively, or whose cleaned
form contains no alphabetic characters. (The cleaned form is the result of
`_clean_translation_text`, separator splitting and short-source phrase
trimming; the code checks the claim's conditions against this cleaned form,
not against the raw candidate.) -/
theorem sanitizer_rejects_amended (zipf : Str → Rat) (t s la : Str) (ab : Bool)
    (h : t = [] ∨
      markerTags.any (fun m => m.isPrefixOf (toLowerStr (sanitizeStage t s))) = true ∨
      (s ≠ [] ∧ sanitizeStage t s ≠ [] ∧ toLowerStr (sanitizeStage t s) = toLowerStr s) ∨
      (∀ c ∈ sanitizeStage t s, isAlphaChar c = false)) :
    sanitizeTranslation zipf t s la ab = [] := by
  rcases h with ht | hA | ⟨hs, hc0, heq⟩ | hna
  · subst ht
    simp only [sanitizeTranslation, sanitizeStage_nil]
    rw [if_neg (show ¬ ((markerTags.any fun m =>
        List.isPrefixOf m (toLowerStr ([] : Str))) = true) by decide)]
    rw [ite_self]
    exact sanitize_tail_blank zipf s ab
  · simp only [sanitizeTranslation]
    rw [if_pos hA, ite_self]
    exact sanitize_tail_blank zipf s ab
  · simp only [sanitizeTranslation]
    by_cases hA : markerTags.any (fun m => m.isPrefixOf (toLowerStr (sanitizeStage t s))) = true
    · rw [if_pos hA, ite_self]
      exact sanitize_tail_blank zipf s ab
    · rw [if_neg hA]
      rw [if_pos (show (!s.isEmpty && !(sanitizeStage t s).isEmpty &&
          toLowerStr (sanitizeStage t s) == toLowerStr s) = true by
        simp [List.isEmpty_iff, hs, hc0, heq])]
      exact sanitize_tail_blank zipf s ab
  · simp only [sanitizeTranslation]
    by_cases hA : markerTags.any (fun m => m.isPrefixOf (toLowerStr (sanitizeStage t s))) = true
    · rw [if_pos hA, ite_self]
      exact sanitize_tail_blank zipf s ab
    · rw [if_neg hA]
      by_cases hB : (!s.isEmpty && !(sanitizeStage t s).isEmpty &&
          toLowerStr (sanitizeStage t s) == toLowerStr s) = true
      · rw [if_pos hB]
        exact sanitize_tail_blank zipf s ab
      · rw [if_neg hB]
        rw [if_pos (bad_of_no_alpha zipf _ s hna), cleanTranslationText_nil]
        cases ab <;> rfl

/-- C5, witness for the amended theorem: a morphological-marker candidate is
rejected. -/
theorem sanitizer_rejects_amended_witness :
    sanitizeTranslation zipfZero ("plural: case".toList) ("casa".toList) itL false = [] :=
  sanitizer_rejects_amended zipfZero ("plural: case".toList) ("casa".toList) itL false
    (Or.inr (Or.inl (by decide)))

-- ------------------------------------------------------------------
-- C8: determinism of the cached pipeline
-- ------------------------------------------------------------------

/-- A normalization cache is correct when every entry stores the value of
the pure normalization at its key. -/
def cacheOK (c : NormCache) : Prop := ∀ e ∈ c, e.2 = normCore e.1.2 e.1.1

/-- The cached `_normalize_word_form` agrees with the pure function and
preserves cache correctness. -/
lemma normCoreCached_correct {cache : NormCache} (h : cacheOK cache) (w lang : Str) :
    (normCoreCached cache w lang).1 = normCore w lang ∧
      cacheOK (normCoreCached cache w lang).2 := by
  unfold normCoreCached
  by_cases hw : w.isEmpty = true
  · rw [if_pos hw]
    refine ⟨?_, h⟩
    rw [List.isEmpty_iff.mp hw]
    rfl
  · rw [if_neg hw]
    cases hf : cache.find? (fun e => e.1.1 == lang && e.1.2 == w) with
    | some e =>
      have hm := List.mem_of_find?_eq_some hf
      have hp := List.find?_some hf
      simp only [Bool.and_eq_true, beq_iff_eq] at hp
      refine ⟨?_, h⟩
      show e.2 = normCore w lang
      rw [h e hm, hp.1, hp.2]
    | none =>
      refine ⟨?_, ?_⟩
      · show normCoreBody w lang = normCore w lang
        simp only [normCore, hw, Bool.false_eq_true, if_false]
      · intro e he
        rcases List.mem_append.mp he with he1 | he2
        · exact h e he1
        · rw [List.mem_singleton.mp he2]
          simp only [normCore, hw, Bool.false_eq_true, if_false]

/-- The cached public wrapper agrees with the pure wrapper and preserves
cache correctness. -/
lemma normalizeWFCached_correct {cache : NormCache} (h : cacheOK cache)
    (word language : Str) :
    (normalizeWFCached cache word language).1 = normalizeWordForm word language ∧
      cacheOK (normalizeWFCached cache word language).2 := by
  unfold normalizeWFCached normalizeWordForm
  by_cases hw : word.isEmpty = true
  · rw [if_pos hw, if_pos hw]
    exact ⟨rfl, h⟩
  · rw [if_neg hw, if_neg hw]
    obtain ⟨h1, h2⟩ := normCoreCached_correct h (toLowerStr (trimStr word))
      (toLowerStr (if language.isEmpty then enL else language))
    refine ⟨?_, h2⟩
    show (if !(normCoreCached cache (toLowerStr (trimStr word))
          (toLowerStr (if language.isEmpty then enL else language))).1.isEmpty
        then (normCoreCached cache (toLowerStr (trimStr word))
          (toLowerStr (if language.isEmpty then enL else language))).1
        else toLowerStr (trimStr word)) =
      (if !(normCore (toLowerStr (trimStr word))
          (toLowerStr (if language.isEmpty then enL else language))).isEmpty
        then normCore (toLowerStr (trimStr word))
          (toLowerStr (if language.isEmpty then enL else language))
        else toLowerStr (trimStr word))
    rw [h1]

/-- Normalizing a token sequence through the cache yields the pure map and
preserves cache correctness. -/
lemma normalizeAll_correct (language : Str) :
    ∀ (ws : List Str) (cache : NormCache), cacheOK cache →
      (normalizeAll language ws cache).1 =
        ws.map (fun w => normalizeWordForm w language) ∧
      cacheOK (normalizeAll language ws cache).2 := by
  intro ws
  induction ws with
  | nil => intro cache h; exact ⟨rfl, h⟩
  | cons w rest ih =>
    intro cache h
    obtain ⟨h1, h2⟩ := normalizeWFCached_correct h w language
    obtain ⟨h3, h4⟩ := ih (normalizeWFCached cache w language).2 h2
    unfold normalizeAll
    constructor
    · rw [List.map_cons, ← h1, ← h3]
    · exact h4

/-- C8, main theorem: running the extraction → normalization →
canonicalization pipeline a second time on the same text and language,
with the process-wide normalization cache left behind by the first run,
yields exactly the canonical lemma texts and aggregate frequencies of the
first run (the cache returns the same output for the same `(token,
language)` key that the pure computation produced). -/
theorem pipeline_deterministic (text language : Str) :
    (pipelineOnce text language (pipelineOnce text language []).2).1 =
      (pipelineOnce text language []).1 := by
  have h0 : cacheOK [] := by intro e he; cases he
  obtain ⟨h1, h2⟩ := normalizeAll_correct language (extractAllWords text language) [] h0
  obtain ⟨h3, _⟩ := normalizeAll_correct language (extractAllWords text language)
    (normalizeAll language (extractAllWords text language) []).2 h2
  show tally (normalizeAll language (extractAllWords text language)
      (normalizeAll language (extractAllWords text language) []).2).1 =
    tally (normalizeAll language (extractAllWords text language) []).1
  rw [h3, h1]

-- ------------------------------------------------------------------
-- C7: occurrence rows always reference an existing lemma row
-- ------------------------------------------------------------------

/-- The save-state invariant: every committed token references an existing
lemma row id, and every already-resolved pending token record does too. -/
def stIntegrity (st : SaveSt) : Prop :=
  (∀ t ∈ st.tokens, t.lemmaId ∈ st.committed.map (fun r => r.id)) ∧
  (∀ tr ∈ st.tokPending, ∀ i, tr.lemmaId = some i →
    i ∈ st.committed.map (fun r => r.id))

/-- The in-place row update keeps row ids. -/
lemma updateRowWith_id (g : SaveGroup) (r : LemmaRow) : (updateRowWith g r).id = r.id := rfl

/-- `updateFirstRow` with an id-preserving update keeps the id column. -/
lemma updateFirstRow_map_id (p : LemmaRow → Bool) (f : LemmaRow → LemmaRow)
    (hf : ∀ r, (f r).id = r.id) :
    ∀ l : List LemmaRow, (updateFirstRow p f l).map (fun r => r.id) =
      l.map (fun r => r.id) := by
  intro l
  induction l with
  | nil => rfl
  | cons r rs ih =>
    unfold updateFirstRow
    by_cases hp : p r = true
    · rw [if_pos hp]
      simp [hf r]
    · rw [if_neg hp]
      simp [ih]

/-- A found row is a member of the searched store. -/
lemma findRow_mem {committed : List LemmaRow} {t lang : Str} {r : LemmaRow}
    (h : findRow committed t lang = some r) : r ∈ committed :=
  List.mem_of_find?_eq_some h

/-- Token resolution only produces ids of rows in the store it queried. -/
lemma resolveTok_sound (lang : Str) (committed : List LemmaRow)
    (lmap : List (Str × LMapVal)) (tr : TokenRec) (i : Nat)
    (h : (resolveTok lang committed lmap tr).lemmaId = some i) :
    tr.lemmaId = some i ∨ i ∈ committed.map (fun r => r.id) := by
  unfold resolveTok at h
  split at h
  · exact Or.inl h
  · split at h
    · split at h
      · rename_i t hfr
        split at h
        · rename_i r hfr2
          simp only [Option.some.injEq] at h
          refine Or.inr ?_
          rw [← h]
          exact List.mem_map_of_mem (fun r => r.id) (findRow_mem hfr2)
        · exact Or.inl h
      · exact Or.inl h
    · exact Or.inl h

/-- Materialized tokens come from resolved records with the same id. -/
lemma commitTokens_mem {resolved : List TokenRec} {t : TokenRow}
    (h : t ∈ commitTokens resolved) :
    ∃ tr ∈ resolved, tr.lemmaId = some t.lemmaId := by
  unfold commitTokens at h
  rcases List.mem_filterMap.mp h with ⟨tr, htr, hmap⟩
  cases hid : tr.lemmaId with
  | none => rw [hid] at hmap; cases hmap
  | some j =>
    rw [hid] at hmap
    simp only [Option.map_some', Option.some.injEq] at hmap
    refine ⟨tr, htr, ?_⟩
    rw [hid, ← hmap]

/-- `flushLemmas` only extends the id column. -/
lemma flushLemmas_ids_mono (s : SaveSt) (i : Nat)
    (h : i ∈ s.committed.map (fun r => r.id)) :
    i ∈ (flushLemmas s).committed.map (fun r => r.id) := by
  unfold flushLemmas
  simp only [List.map_append, List.mem_append]
  exact Or.inl h

/-- `midFlush` preserves the save-state invariant. -/
lemma midFlush_integrity (lang : Str) (s : SaveSt) (h : stIntegrity s) :
    stIntegrity (midFlush lang s) := by
  obtain ⟨h1, h2⟩ := h
  unfold midFlush
  by_cases hp : (!s.pending.isEmpty) = true
  · rw [if_pos hp]
    constructor
    · intro t ht
      rcases List.mem_append.mp ht with ht1 | ht2
      · exact flushLemmas_ids_mono s t.lemmaId (h1 t ht1)
      · rcases commitTokens_mem ht2 with ⟨tr0, htr0, hid0⟩
        rcases List.mem_map.mp htr0 with ⟨tr, htr, rfl⟩
        rcases resolveTok_sound lang (flushLemmas s).committed (flushLemmas s).lmap tr
          t.lemmaId hid0 with hc | hc
        · exact flushLemmas_ids_mono s t.lemmaId (h2 tr htr t.lemmaId hc)
        · exact hc
    · intro tr htr i hi
      cases htr
  · rw [if_neg hp]
    constructor
    · intro t ht
      rcases List.mem_append.mp ht with ht1 | ht2
      · exact h1 t ht1
      · rcases commitTokens_mem ht2 with ⟨tr, htr, hid⟩
        exact h2 tr htr t.lemmaId hid
    · intro tr htr i hi
      cases htr

/-- `finalFlush` preserves the save-state invariant. -/
lemma finalFlush_integrity (lang : Str) (s : SaveSt) (h : stIntegrity s) :
    stIntegrity (finalFlush lang s) := by
  obtain ⟨h1, h2⟩ := h
  unfold finalFlush
  by_cases hp : (!s.pending.isEmpty) = true
  · rw [if_pos hp]
    constructor
    · intro t ht
      rcases List.mem_append.mp ht with ht1 | ht2
      · exact flushLemmas_ids_mono s t.lemmaId (h1 t ht1)
      · rcases commitTokens_mem ht2 with ⟨tr0, htr0, hid0⟩
        rcases List.mem_map.mp htr0 with ⟨tr, htr, rfl⟩
        rcases resolveTok_sound lang (flushLemmas s).committed (flushLemmas s).lmap tr
          t.lemmaId hid0 with hc | hc
        · exact flushLemmas_ids_mono s t.lemmaId (h2 tr htr t.lemmaId hc)
        · exact hc
    · intro tr htr i hi
      cases htr
  · rw [if_neg hp]
    constructor
    · intro t ht
      rcases List.mem_append.mp ht with ht1 | ht2
      · exact h1 t ht1
      · rcases commitTokens_mem ht2 with ⟨tr0, htr0, hid0⟩
        rcases List.mem_map.mp htr0 with ⟨tr, htr, rfl⟩
        rcases resolveTok_sound lang s.committed s.lmap tr t.lemmaId hid0 with hc | hc
        · exact h2 tr htr t.lemmaId hc
        · exact hc
    · intro tr htr i hi
      cases htr

/-- Every token record emitted for a group carries the lemma id it was
given. -/
lemma tokenRecsForGroup_lemmaId (bookId : Nat) (lid : Option Nat)
    (positions : List Nat) (frequency : Nat) (origTok : Str) :
    ∀ tr ∈ tokenRecsForGroup bookId lid positions frequency origTok,
      tr.lemmaId = lid := by
  intro tr htr
  unfold tokenRecsForGroup at htr
  by_cases hp : (!positions.isEmpty) = true
  · rw [if_pos hp] at htr
    rcases List.mem_map.mp htr with ⟨p, _, rfl⟩
    rfl
  · rw [if_neg hp] at htr
    rcases List.mem_map.mp htr with ⟨p, _, rfl⟩
    rfl

/-- One upsert-loop iteration preserves the save-state invariant. -/
lemma saveStep_integrity (lang : Str) (bookId : Nat) (s : SaveSt) (g : SaveGroup)
    (h : stIntegrity s) : stIntegrity (saveStep lang bookId s g) := by
  obtain ⟨h1, h2⟩ := h
  unfold saveStep
  have hcore : ∀ s1 : SaveSt, stIntegrity s1 →
      stIntegrity { s1 with savedCount := s1.savedCount + 1 } := by
    intro s1 hs1
    exact hs1
  have hcond : ∀ s1 : SaveSt, stIntegrity s1 →
      stIntegrity (if s1.savedCount % 100 == 0 then midFlush lang s1 else s1) := by
    intro s1 hs1
    by_cases hc : (s1.savedCount % 100 == 0) = true
    · rw [if_pos hc]; exact midFlush_integrity lang s1 hs1
    · rw [if_neg hc]; exact hs1
  apply hcond
  apply hcore
  cases hd : findRow s.committed g.toSave lang with
  | some r =>
    simp only [hd]
    constructor
    · intro t ht
      rw [updateFirstRow_map_id _ _ (updateRowWith_id g)]
      exact h1 t ht
    · intro tr htr i hi
      rcases List.mem_append.mp htr with ho | hn
      · rw [updateFirstRow_map_id _ _ (updateRowWith_id g)]
        exact h2 tr ho i hi
      · have hlid := tokenRecsForGroup_lemmaId bookId (some r.id) g.positions g.canonFreq
          g.origTok tr hn
        rw [hlid] at hi
        simp only [Option.some.injEq] at hi
        rw [updateFirstRow_map_id _ _ (updateRowWith_id g), ← hi]
        exact List.mem_map_of_mem (fun r => r.id) (findRow_mem hd)
  | none =>
    simp only [hd]
    cases hfb : (if (none : Option LemmaRow).isNone && !(g.toSave == g.low)
        then findRow s.committed g.low lang else none) with
    | some r =>
      simp only [hfb]
      have hrmem : r ∈ s.committed := by
        by_cases hcnd : ((none : Option LemmaRow).isNone &&
            !(g.toSave == g.low)) = true
        · rw [if_pos hcnd] at hfb
          exact findRow_mem hfb
        · rw [if_neg hcnd] at hfb
          cases hfb
      constructor
      · intro t ht
        rw [updateFirstRow_map_id _ _ (updateRowWith_id g)]
        exact h1 t ht
      · intro tr htr i hi
        rcases List.mem_append.mp htr with ho | hn
        · rw [updateFirstRow_map_id _ _ (updateRowWith_id g)]
          exact h2 tr ho i hi
        · have hlid := tokenRecsForGroup_lemmaId bookId (some r.id) g.positions g.canonFreq
            g.origTok tr hn
          rw [hlid] at hi
          simp only [Option.some.injEq] at hi
          rw [updateFirstRow_map_id _ _ (updateRowWith_id g), ← hi]
          exact List.mem_map_of_mem (fun r => r.id) hrmem
    | none =>
      simp only [hfb]
      constructor
      · intro t ht
        exact h1 t ht
      · intro tr htr i hi
        rcases List.mem_append.mp htr with ho | hn
        · exact h2 tr ho i hi
        · have hlid := tokenRecsForGroup_lemmaId bookId none g.positions g.canonFreq
            g.origTok tr hn
          rw [hlid] at hi
          cases hi

/-- C7. Every occurrence row written by the persistence phase references a
lemma row that exists in the store after the save: unresolved token records
are filtered out, and resolution only ever assigns ids of committed rows. -/
theorem occurrences_reference_existing_lemmas (lang : Str) (bookId : Nat)
    (db : List LemmaRow) (startId : Nat) (gs : List SaveGroup) :
    ∀ t ∈ (saveDocument lang bookId db startId gs).tokens,
      ∃ r ∈ (saveDocument lang bookId db startId gs).committed, r.id = t.lemmaId := by
  have hinv : stIntegrity (gs.foldl (saveStep lang bookId) (initSaveSt db startId)) := by
    have hbase : stIntegrity (initSaveSt db startId) := by
      constructor
      · intro t ht; cases ht
      · intro tr htr i hi; cases htr
    clear hbase
    have hgen : ∀ (l : List SaveGroup) (s0 : SaveSt), stIntegrity s0 →
        stIntegrity (l.foldl (saveStep lang bookId) s0) := by
      intro l
      induction l with
      | nil => intro s0 hs0; exact hs0
      | cons g rest ih =>
        intro s0 hs0
        exact ih (saveStep lang bookId s0 g) (saveStep_integrity lang bookId s0 g hs0)
    apply hgen
    constructor
    · intro t ht; cases ht
    · intro tr htr i hi; cases htr
  intro t ht
  have hfin := finalFlush_integrity lang _ hinv
  obtain ⟨hf1, _⟩ := hfin
  have := hf1 t ht
  rcases List.mem_map.mp this with ⟨r, hrmem, hrid⟩
  exact ⟨r, hrmem, hrid⟩

-- ------------------------------------------------------------------
-- C1: per-run row uniqueness and re-ingest idempotence
-- ------------------------------------------------------------------

/-- The pending record the insert branch collects for a group. -/
def pendOf (lang : Str) (g : SaveGroup) : PendingLemma :=
  { text := g.toSave, lang := lang, freq := g.freq }

/-- Flushing a concatenation of batches is flushing them in sequence. -/
lemma mkRows_append (n : Nat) (l1 l2 : List PendingLemma) :
    mkRows n (l1 ++ l2) = mkRows n l1 ++ mkRows (n + l1.length) l2 := by
  induction l1 generalizing n with
  | nil => simp [mkRows]
  | cons p rest ih =>
    have harith : n + 1 + rest.length = n + (rest.length + 1) := by omega
    simp [mkRows, ih (n + 1), harith]

/-- Flushed rows carry exactly the pending records' text, language and
frequency. -/
lemma mkRows_proj (n : Nat) (l : List PendingLemma) :
    (mkRows n l).map (fun r => (r.text, r.lang, r.freq)) =
      l.map (fun p => (p.text, p.lang, p.freq)) := by
  induction l generalizing n with
  | nil => rfl
  | cons p rest ih => simp [mkRows, ih]

/-- Committed rows of a flushed batch come from pending records. -/
lemma mem_mkRows {n : Nat} {l : List PendingLemma} {r : LemmaRow} (h : r ∈ mkRows n l) :
    ∃ p ∈ l, r.text = p.text ∧ r.lang = p.lang ∧ r.freq = p.freq := by
  have hm := List.mem_map_of_mem (fun r : LemmaRow => (r.text, r.lang, r.freq)) h
  rw [mkRows_proj] at hm
  rcases List.mem_map.mp hm with ⟨p, hp, he⟩
  simp only [Prod.mk.injEq] at he
  exact ⟨p, hp, he.1.symm, he.2.1.symm, he.2.2.symm⟩

/-- Every pending record produces a committed row with its fields. -/
lemma mkRows_mem_of {n : Nat} {l : List PendingLemma} {p : PendingLemma} (h : p ∈ l) :
    ∃ r ∈ mkRows n l, r.text = p.text ∧ r.lang = p.lang ∧ r.freq = p.freq := by
  have hm := List.mem_map_of_mem (fun p : PendingLemma => (p.text, p.lang, p.freq)) h
  rw [← mkRows_proj n l] at hm
  rcases List.mem_map.mp hm with ⟨r, hr, he⟩
  simp only [Prod.mk.injEq] at he
  exact ⟨r, hr, he.1, he.2.1, he.2.2⟩

/-- An in-place update that fixes every matching row is a no-op. -/
lemma updateFirstRow_id (p : LemmaRow → Bool) (f : LemmaRow → LemmaRow) :
    ∀ l : List LemmaRow, (∀ r ∈ l, p r = true → f r = r) → updateFirstRow p f l = l := by
  intro l
  induction l with
  | nil => intro h; rfl
  | cons r rs ih =>
    intro h
    unfold updateFirstRow
    by_cases hp : p r = true
    · rw [if_pos hp, h r (List.mem_cons_self r rs) hp]
    · rw [if_neg hp, ih (fun x hx hpx => h x (List.mem_cons_of_mem r hx) hpx)]

/-- A lookup over rows none of which has the queried text misses. -/
lemma findRow_eq_none {committed : List LemmaRow} {t lang : Str}
    (h : ∀ r ∈ committed, r.text ≠ t) : findRow committed t lang = none := by
  unfold findRow
  apply List.find?_eq_none.mpr
  intro r hr hcon
  simp only [Bool.and_eq_true, beq_iff_eq] at hcon
  exact h r hr hcon.1

/-- A lookup over rows one of which has the queried text and language
hits. -/
lemma findRow_isSome {committed : List LemmaRow} {t lang : Str} (r : LemmaRow)
    (hr : r ∈ committed) (ht : r.text = t) (hl : r.lang = lang) :
    ∃ r0, findRow committed t lang = some r0 := by
  unfold findRow
  have hs : (committed.find? (fun r => r.text == t && r.lang == lang)).isSome := by
    rw [List.find?_isSome]
    exact ⟨r, hr, by simp [ht, hl]⟩
  exact Option.isSome_iff_exists.mp hs

/-- A found row is in the store and carries the queried text and
language. -/
lemma findRow_props {committed : List LemmaRow} {t lang : Str} {r : LemmaRow}
    (h : findRow committed t lang = some r) :
    r ∈ committed ∧ r.text = t ∧ r.lang = lang := by
  have hm := List.mem_of_find?_eq_some h
  have hp := List.find?_some h
  simp only [Bool.and_eq_true, beq_iff_eq] at hp
  exact ⟨hm, hp.1, hp.2⟩

/-- Invariant of the first-run upsert loop over an initially empty store:
the committed rows are the flushed prefix of the processed groups' pending
records, the pending records are the unflushed suffix, and ids are handed
out sequentially from the starting id. -/
def run1Inv (lang : Str) (startId : Nat) (done : List SaveGroup) (s : SaveSt) : Prop :=
  ∃ j, j ≤ done.length ∧
    s.committed = mkRows startId ((done.take j).map (pendOf lang)) ∧
    s.pending = (done.drop j).map (pendOf lang) ∧
    s.nextId = startId + j

/-- One first-run iteration whose lookups miss extends the invariant. -/
lemma saveStep_run1 (lang : Str) (bookId startId : Nat) (done : List SaveGroup)
    (g : SaveGroup) (s : SaveSt)
    (hinv : run1Inv lang startId done s)
    (hmiss1 : ∀ g0 ∈ done, g0.toSave ≠ g.toSave)
    (hmiss2 : ∀ g0 ∈ done, g0.toSave ≠ g.low) :
    run1Inv lang startId (done ++ [g]) (saveStep lang bookId s g) := by
  obtain ⟨j, hj, hc, hp, hn⟩ := hinv
  have htexts : ∀ r ∈ s.committed, ∃ g0 ∈ done, r.text = g0.toSave := by
    intro r hr
    rw [hc] at hr
    rcases mem_mkRows hr with ⟨p, hpmem, hpt, _, _⟩
    rcases List.mem_map.mp hpmem with ⟨g0, hg0, rfl⟩
    exact ⟨g0, List.mem_of_mem_take hg0, hpt⟩
  have hd : findRow s.committed g.toSave lang = none := by
    apply findRow_eq_none
    intro r hr hcon
    rcases htexts r hr with ⟨g0, hg0, ht⟩
    exact hmiss1 g0 hg0 (ht ▸ hcon)
  have hfb : findRow s.committed g.low lang = none := by
    apply findRow_eq_none
    intro r hr hcon
    rcases htexts r hr with ⟨g0, hg0, ht⟩
    exact hmiss2 g0 hg0 (ht ▸ hcon)
  unfold saveStep
  simp only [hd, hfb, ite_self]
  set s1 : SaveSt :=
    { s with
      pending := s.pending ++ [({ text := g.toSave, lang := lang, freq := g.freq :
        PendingLemma })],
      lmap := recordLMap s.lmap g.wordForms (Sum.inr g.low),
      tokPending := s.tokPending ++
        tokenRecsForGroup bookId none g.positions g.canonFreq g.origTok,
      savedCount := s.savedCount + 1 } with hs1
  have hs1inv : run1Inv lang startId (done ++ [g]) s1 := by
    refine ⟨j, ?_, ?_, ?_, ?_⟩
    · simp only [List.length_append, List.length_cons, List.length_nil]
      omega
    · rw [hs1]
      show s.committed = _
      rw [hc, List.take_append_of_le_length hj]
    · rw [hs1]
      show s.pending ++ [({ text := g.toSave, lang := lang, freq := g.freq :
        PendingLemma })] = _
      rw [hp, List.drop_append_of_le_length hj, List.map_append]
      rfl
    · rw [hs1]
      exact hn
  by_cases hmod : (s1.savedCount % 100 == 0) = true
  · rw [if_pos hmod]
    obtain ⟨j1, hj1, hc1, hp1, hn1⟩ := hs1inv
    have hpne : (!s1.pending.isEmpty) = true := by
      rw [hs1]
      show (!(s.pending ++ [_]).isEmpty) = true
      simp
    unfold midFlush
    rw [if_pos hpne]
    refine ⟨(done ++ [g]).length, Nat.le_refl _, ?_, ?_, ?_⟩
    · show (flushLemmas s1).committed = _
      unfold flushLemmas
      show s1.committed ++ mkRows s1.nextId s1.pending = _
      have hlen : (((done ++ [g]).take j1).map (pendOf lang)).length = j1 := by
        simp only [List.length_map, List.length_take]
        omega
      rw [hc1, hp1, hn1, List.take_length]
      conv_rhs => rw [← List.take_append_drop j1 (done ++ [g])]
      rw [List.map_append, mkRows_append, hlen]
    · show ([] : List PendingLemma) = _
      rw [List.drop_length]
      rfl
    · show s1.nextId + s1.pending.length = _
      rw [hp1, hn1]
      simp only [List.length_map, List.length_drop]
      omega
  · rw [if_neg hmod]
    exact hs1inv

/-- The first-run fold maintains the invariant when the groups' lowercase
keys are pairwise distinct and each group's texts lower-case to its key. -/
lemma run1_fold (lang : Str) (bookId startId : Nat) :
    ∀ (rest done : List SaveGroup) (s : SaveSt),
      ((done ++ rest).map (fun g => g.low)).Nodup →
      (∀ g ∈ done ++ rest, toLowerStr g.low = g.low) →
      (∀ g ∈ done ++ rest, toLowerStr g.toSave = g.low) →
      run1Inv lang startId done s →
      run1Inv lang startId (done ++ rest) (rest.foldl (saveStep lang bookId) s) := by
  intro rest
  induction rest with
  | nil =>
    intro done s _ _ _ hinv
    simpa using hinv
  | cons g rest2 ih =>
    intro done s hnd hlower hcap hinv
    have heq : done ++ g :: rest2 = (done ++ [g]) ++ rest2 := by simp
    rw [heq] at hnd hlower hcap ⊢
    rw [List.foldl_cons]
    apply ih (done ++ [g]) (saveStep lang bookId s g) hnd hlower hcap
    have hgmem : g ∈ (done ++ [g]) ++ rest2 := by simp
    have hlowsep : ∀ g0 ∈ done, g0.low ≠ g.low := by
      intro g0 hg0 hcon
      have hsub : ((done ++ [g]).map (fun g => g.low)).Sublist
          (((done ++ [g]) ++ rest2).map (fun g => g.low)) :=
        (List.sublist_append_left (done ++ [g]) rest2).map (fun g => g.low)
      have hnd2 : ((done ++ [g]).map (fun g => g.low)).Nodup := hnd.sublist hsub
      rw [List.map_append] at hnd2
      have hdisj := (List.nodup_append.mp hnd2).2.2
      exact hdisj (List.mem_map_of_mem _ hg0) (by simp [hcon])
    apply saveStep_run1 lang bookId startId done g s hinv
    · intro g0 hg0 hcon
      have h0 : toLowerStr g0.toSave = g0.low := hcap g0 (by simp [hg0])
      have h1 : toLowerStr g.toSave = g.low := hcap g hgmem
      apply hlowsep g0 hg0
      rw [← h0, ← h1, hcon]
    · intro g0 hg0 hcon
      have h0 : toLowerStr g0.toSave = g0.low := hcap g0 (by simp [hg0])
      have h1 : toLowerStr g.low = g.low := hlower g hgmem
      apply hlowsep g0 hg0
      rw [← h0, hcon, h1]

/-- After a first run over an empty store, the committed rows are exactly
the flushed pending records of all groups, ids assigned sequentially. -/
lemma run1_committed (lang : Str) (bookId startId : Nat) (gs : List SaveGroup)
    (hnd : (gs.map (fun g => g.low)).Nodup)
    (hlower : ∀ g ∈ gs, toLowerStr g.low = g.low)
    (hcap : ∀ g ∈ gs, toLowerStr g.toSave = g.low) :
    (saveDocument lang bookId [] startId gs).committed =
      mkRows startId (gs.map (pendOf lang)) := by
  have hinit : run1Inv lang startId [] (initSaveSt [] startId) :=
    ⟨0, Nat.le_refl 0, rfl, rfl, rfl⟩
  have hfold := run1_fold lang bookId startId gs [] (initSaveSt [] startId)
    (by simpa using hnd) (by simpa using hlower) (by simpa using hcap) hinit
  rw [List.nil_append] at hfold
  obtain ⟨j, hj, hc, hp, hn⟩ := hfold
  unfold saveDocument finalFlush
  set sF := gs.foldl (saveStep lang bookId) (initSaveSt [] startId) with hsF
  by_cases hpe : (!sF.pending.isEmpty) = true
  · rw [if_pos hpe]
    show (flushLemmas sF).committed = _
    unfold flushLemmas
    show sF.committed ++ mkRows sF.nextId sF.pending = _
    have hlen : ((gs.take j).map (pendOf lang)).length = j := by
      simp only [List.length_map, List.length_take]
      omega
    rw [hc, hp, hn]
    conv_rhs => rw [← List.take_append_drop j gs]
    rw [List.map_append, mkRows_append, hlen]
  · rw [if_neg hpe]
    show sF.committed = _
    have hnil : sF.pending = [] := by
      cases hq : sF.pending with
      | nil => rfl
      | cons a l =>
        exfalso
        apply hpe
        rw [hq]
        rfl
    rw [hnil] at hp
    have hdrop : gs.drop j = [] := List.map_eq_nil_iff.mp hp.symm
    have hjlen : gs.length ≤ j := by
      have := List.drop_eq_nil_iff.mp hdrop
      omega
    have hjeq : j = gs.length := Nat.le_antisymm hj hjlen
    rw [hc, hjeq, List.take_length]

/-- Flushed rows carry the pending records' text and language
positionally. -/
lemma mkRows_textlang (n : Nat) (l : List PendingLemma) :
    (mkRows n l).map (fun r => (r.text, r.lang)) = l.map (fun p => (p.text, p.lang)) := by
  induction l generalizing n with
  | nil => rfl
  | cons p rest ih => simp [mkRows, ih]

/-- With pairwise-distinct lowercase keys, a first-run row bearing a
group's text carries that group's frequency. -/
lemma run1_row_freq (lang : Str) (startId : Nat) (gs : List SaveGroup)
    (hnd : (gs.map (fun g => g.low)).Nodup)
    (hcap : ∀ g ∈ gs, toLowerStr g.toSave = g.low)
    {g : SaveGroup} (hg : g ∈ gs) {r : LemmaRow}
    (hr : r ∈ mkRows startId (gs.map (pendOf lang)))
    (ht : r.text = g.toSave) : r.freq = g.freq := by
  rcases mem_mkRows hr with ⟨p, hp, hpt, _, hpf⟩
  rcases List.mem_map.mp hp with ⟨g2, hg2, rfl⟩
  have htos : g2.toSave = g.toSave := by
    show (pendOf lang g2).text = g.toSave
    rw [← hpt, ht]
  have hlow : g2.low = g.low := by
    rw [← hcap g2 hg2, ← hcap g hg, htos]
  have hgg : g2 = g := List.inj_on_of_nodup_map hnd hg2 hg hlow
  rw [hpf, hgg]
  rfl

/-- A second-run iteration whose direct lookup hits a row it leaves
unchanged preserves the store. -/
lemma saveStep_run2 (lang : Str) (bookId : Nat) (C : List LemmaRow) (g : SaveGroup)
    (s : SaveSt) (hcom : s.committed = C) (hpend : s.pending = [])
    (hhit : ∃ r ∈ C, r.text = g.toSave ∧ r.lang = lang)
    (hid : ∀ r ∈ C, r.text = g.toSave → r.lang = lang → updateRowWith g r = r) :
    (saveStep lang bookId s g).committed = C ∧ (saveStep lang bookId s g).pending = [] := by
  obtain ⟨r0, hr0, hrt, hrl⟩ := hhit
  have hr0s : r0 ∈ s.committed := by
    rw [hcom]
    exact hr0
  obtain ⟨r1, hr1⟩ := findRow_isSome r0 hr0s hrt hrl
  have hupd : updateFirstRow (fun r2 => r2.text == g.toSave && r2.lang == lang)
      (updateRowWith g) s.committed = s.committed := by
    apply updateFirstRow_id
    intro r hr hpr
    simp only [Bool.and_eq_true, beq_iff_eq] at hpr
    exact hid r (hcom ▸ hr) hpr.1 hpr.2
  have hmid : ∀ s2 : SaveSt, s2.committed = C → s2.pending = [] →
      (midFlush lang s2).committed = C ∧ (midFlush lang s2).pending = [] := by
    intro s2 h1 h2
    unfold midFlush
    have hcnd : (!s2.pending.isEmpty) = false := by rw [h2]; rfl
    rw [hcnd]
    simp only [Bool.false_eq_true, if_false]
    exact ⟨h1, h2⟩
  have hstep : ∀ (c : Nat) (s2 : SaveSt), s2.committed = C → s2.pending = [] →
      ((if c % 100 == 0 then midFlush lang s2 else s2).committed = C ∧
       (if c % 100 == 0 then midFlush lang s2 else s2).pending = []) := by
    intro c s2 h1 h2
    by_cases hc2 : (c % 100 == 0) = true
    · rw [if_pos hc2]
      exact hmid s2 h1 h2
    · rw [if_neg hc2]
      exact ⟨h1, h2⟩
  unfold saveStep
  simp only [hr1]
  apply hstep
  · show updateFirstRow _ _ s.committed = C
    rw [hupd, hcom]
  · show s.pending = []
    exact hpend

/-- The second-run fold leaves the store and the pending batch unchanged
when every group hits a row it leaves unchanged. -/
lemma run2_fold (lang : Str) (bookId : Nat) (C : List LemmaRow) :
    ∀ (rest : List SaveGroup) (s : SaveSt),
      (∀ g ∈ rest, ∃ r ∈ C, r.text = g.toSave ∧ r.lang = lang) →
      (∀ g ∈ rest, ∀ r ∈ C, r.text = g.toSave → r.lang = lang → updateRowWith g r = r) →
      s.committed = C → s.pending = [] →
      (rest.foldl (saveStep lang bookId) s).committed = C ∧
      (rest.foldl (saveStep lang bookId) s).pending = [] := by
  intro rest
  induction rest with
  | nil =>
    intro s _ _ h1 h2
    exact ⟨h1, h2⟩
  | cons g rest2 ih =>
    intro s hhit hid h1 h2
    rw [List.foldl_cons]
    have hg := saveStep_run2 lang bookId C g s h1 h2 (hhit g (by simp)) (hid g (by simp))
    exact ih (saveStep lang bookId s g) (fun g0 hg0 => hhit g0 (by simp [hg0]))
      (fun g0 hg0 => hid g0 (by simp [hg0])) hg.1 hg.2

/-- Re-running the whole persistence phase against a store in which every
group hits a row it leaves unchanged does not change the store. -/
lemma run2_noop (lang : Str) (bookId2 startId2 : Nat) (C : List LemmaRow)
    (gs : List SaveGroup)
    (hhit : ∀ g ∈ gs, ∃ r ∈ C, r.text = g.toSave ∧ r.lang = lang)
    (hid : ∀ g ∈ gs, ∀ r ∈ C, r.text = g.toSave → r.lang = lang → updateRowWith g r = r) :
    (saveDocument lang bookId2 C startId2 gs).committed = C := by
  unfold saveDocument finalFlush
  have hfold := run2_fold lang bookId2 C gs (initSaveSt C startId2) hhit hid rfl rfl
  set sF := gs.foldl (saveStep lang bookId2) (initSaveSt C startId2) with hsF
  have hcnd : (!sF.pending.isEmpty) = false := by
    rw [hfold.2]
    rfl
  rw [hcnd]
  simp only [Bool.false_eq_true, if_false]
  exact hfold.1

/-- C1. Amended: within one document run over an initially empty store, the
upsert produces at most one row per (lemma text, language) pair, and
re-ingesting the same document leaves the store — rows and frequencies —
unchanged (the update takes `max`, never the sum). The hypotheses say the
groups' lowercase keys are pairwise distinct and each stored text
lower-cases to its group's key, which is how the grouping phase produces
them within one document; across documents the claimed (lowercased text,
language) uniqueness fails, see the counterexample. -/
theorem lemma_rows_unique_and_reingest_idempotent (lang : Str)
    (bookId bookId2 startId startId2 : Nat) (gs : List SaveGroup)
    (hnd : (gs.map (fun g => g.low)).Nodup)
    (hlower : ∀ g ∈ gs, toLowerStr g.low = g.low)
    (hcap : ∀ g ∈ gs, toLowerStr g.toSave = g.low) :
    ((saveDocument lang bookId [] startId gs).committed.map
        (fun r => (r.text, r.lang))).Nodup ∧
    (saveDocument lang bookId2 (saveDocument lang bookId [] startId gs).committed
        startId2 gs).committed =
      (saveDocument lang bookId [] startId gs).committed := by
  have hC := run1_committed lang bookId startId gs hnd hlower hcap
  have htosnd : (gs.map (fun g => g.toSave)).Nodup := by
    have hmap : gs.map (fun g => g.low) = (gs.map (fun g => g.toSave)).map toLowerStr := by
      rw [List.map_map]
      exact List.map_congr_left (fun g hg => (hcap g hg).symm)
    rw [hmap] at hnd
    exact List.Nodup.of_map toLowerStr hnd
  constructor
  · rw [hC, mkRows_textlang]
    have hmm : (gs.map (pendOf lang)).map (fun p => (p.text, p.lang)) =
        (gs.map (fun g => g.toSave)).map (fun t => (t, lang)) := by
      rw [List.map_map, List.map_map]
      rfl
    rw [hmm]
    exact htosnd.map (fun a b h => congrArg Prod.fst h)
  · rw [hC]
    apply run2_noop
    · intro g hg
      rcases mkRows_mem_of (n := startId) (List.mem_map_of_mem (pendOf lang) hg) with
        ⟨r, hr, h1, h2, _⟩
      exact ⟨r, hr, h1, h2⟩
    · intro g hg r hr ht hl
      have hf : r.freq = g.freq := run1_row_freq lang startId gs hnd hcap hg hr ht
      have h1 : (if g.setCap then g.toSave else r.text) = r.text := by
        rw [ht]
        exact ite_self _
      have h2 : max r.freq g.freq = r.freq := by
        rw [hf]
        exact Nat.max_self _
      calc updateRowWith g r = { r with text := r.text, freq := r.freq } := by
            unfold updateRowWith
            rw [h1, h2]
        _ = r := rfl

/-- First-document grouping output for the capitalized proper noun
`Stella`: the proper-noun branch stores the capitalized surface form. -/
def gStella1 : SaveGroup :=
  { toSave := "Stella".toList, low := "stella".toList, setCap := true, freq := 6,
    positions := [], canonFreq := 6, origTok := "Stella".toList,
    wordForms := ["stella".toList] }

/-- Second-document grouping output for the same lemma seen only in
lowercase: the stored text is the lowercase key itself. -/
def gStella2 : SaveGroup :=
  { toSave := "stella".toList, low := "stella".toList, setCap := false, freq := 4,
    positions := [], canonFreq := 4, origTok := "stella".toList,
    wordForms := ["stella".toList] }

/-- C1, counterexample to the cross-document reading: a first document
stores the proper noun as `Stella`; a second document whose group carries
the lowercase text misses the exact-text lookup, and the lowercase
fallback (lines 1227–1231) is skipped because the stored text already
equals the lowercase key, so a second row is inserted — two rows for the
same (normalized lemma text, language) pair. -/
theorem lemma_uniqueness_fails_across_documents :
    ((saveDocument itL 2 (saveDocument itL 1 [] 1 [gStella1]).committed 2
        [gStella2]).committed.map (fun r => (r.text, r.freq))) =
      [("Stella".toList, 6), ("stella".toList, 4)] ∧
    ¬ (((saveDocument itL 2 (saveDocument itL 1 [] 1 [gStella1]).committed 2
        [gStella2]).committed.map (fun r => (toLowerStr r.text, r.lang))).Nodup) := by
  decide

/-- Proper-noun group fixture for the C1 witness. -/
def gRoma : SaveGroup :=
  { toSave := "Roma".toList, low := "roma".toList, setCap := true, freq := 3,
    positions := [], canonFreq := 3, origTok := "Roma".toList,
    wordForms := ["roma".toList] }

/-- Common-noun group fixture for the C1 witness. -/
def gCasa : SaveGroup :=
  { toSave := "casa".toList, low := "casa".toList, setCap := false, freq := 5,
    positions := [], canonFreq := 5, origTok := "casa".toList,
    wordForms := ["casa".toList] }

/-- C1, witness: one document with a proper-noun group and a common-noun
group — unique rows after the first run, and an identical store after
re-ingesting. -/
theorem lemma_rows_unique_and_reingest_idempotent_witness :
    ((saveDocument itL 1 [] 1 [gRoma, gCasa]).committed.map
        (fun r => (r.text, r.lang))).Nodup ∧
    (saveDocument itL 2 (saveDocument itL 1 [] 1 [gRoma, gCasa]).committed
        7 [gRoma, gCasa]).committed =
      (saveDocument itL 1 [] 1 [gRoma, gCasa]).committed :=
  lemma_rows_unique_and_reingest_idempotent itL 1 2 1 7 [gRoma, gCasa]
    (by decide) (by decide) (by decide)

/-- Single-group fixture for the C7 witness: the original token is one of
the group's word forms, so its occurrence records resolve at flush time. -/
def gCane : SaveGroup :=
  { toSave := "cane".toList, low := "cane".toList, setCap := false, freq := 2,
    positions := [], canonFreq := 2, origTok := "cane".toList,
    wordForms := ["cane".toList] }

/-- A token row the save of `gCane` inserts. -/
def tCane : TokenRow :=
  { bookId := 1, lemmaId := 1, position := 0, origTok := "cane".toList }

/-- C7, witness: a concrete saved occurrence row references the committed
`cane` lemma row. -/
theorem occurrences_reference_existing_lemmas_witness :
    ∃ r ∈ (saveDocument itL 1 [] 1 [gCane]).committed, r.id = tCane.lemmaId :=
  occurrences_reference_existing_lemmas itL 1 [] 1 [gCane] tCane (by decide)
